import Mathlib

/-!
Verification of the registry dependency-resolution and file-materialization
pipeline of the liftkit CLI.  The definitions below are a shallow embedding of
the TypeScript sources:

* `src/source/lib/registry-process.ts`   — dependency tree construction and
  installation order (`buildDependencyTree`, `calculateInstallationOrder`);
* `src/source/lib/registry-processor.ts` — path resolution, content rewriting
  and the conflict-aware writer (`resolveTargetPath`, `replaceRegistryPaths`,
  `collectPendingFiles`, `checkFileConflicts`, `processRegistryItem`);
* `src/source/lib/registry-utils.ts`     — the schema validator
  (`createFieldValidator`, `findUnknownFields`, `validateRegistryItem`);
* the `processDependencies` loop of the add command.

Network fetches are modelled by a total function `reg : String → RegistryItem`
(the hypothesis that every fetch of a named item succeeds and returns that
item's fixed registry item); the filesystem by an explicit `FS` value; the
unbounded recursion of `buildDependencyTree` by a fuel parameter, with
exhaustion a distinguished outcome.
-/

set_option linter.unusedVariables false

namespace LiftKit

/-- One file belonging to a registry item (registry-types.ts).
`content = none` models a `null`/absent content field. -/
structure RegistryFile where
  path : String
  content : Option String
  deriving DecidableEq, Repr

/-- A registry item, restricted to the fields the verified core reads. -/
structure RegistryItem where
  name : String
  registryDependencies : List String := []
  dependencies : List String := []
  devDependencies : List String := []
  files : List RegistryFile := []
  deriving DecidableEq, Repr

/-- One node of the resolved dependency tree (registry-types.ts
`DependencyNode`); `registryDependencies` holds the child nodes. -/
inductive DependencyNode : Type where
  | mk : String → RegistryItem → List DependencyNode → Nat → DependencyNode
  deriving Repr

def DependencyNode.name : DependencyNode → String
  | .mk n _ _ _ => n

def DependencyNode.item : DependencyNode → RegistryItem
  | .mk _ i _ _ => i

def DependencyNode.registryDependencies : DependencyNode → List DependencyNode
  | .mk _ _ c _ => c

def DependencyNode.depth : DependencyNode → Nat
  | .mk _ _ _ d => d

/-- Outcomes of a failed tree build: the circular-dependency rejection thrown
by the source, or exhaustion of the fuel that stands in for the unbounded
JavaScript recursion. -/
inductive BuildErr : Type where
  | circular (name : String)
  | fuelOut
  deriving DecidableEq, Repr

mutual

/-- `buildDependencyTree` of registry-process.ts, lines 67–91.  The `visited`
set is threaded as a list; the recursive call hands every child a copy
augmented with the current name (`new Set(visited)` plus `visited.add`), so
siblings never see each other's additions.  The second component of the result
is the list of names fetched, in order; the fetch of `rootItemName` happens
after the visited check and before any child is processed. -/
def buildDependencyTree (reg : String → RegistryItem) (fuel : Nat)
    (rootItemName : String) (visited : List String) (depth : Nat) :
    Except BuildErr DependencyNode × List String :=
  match fuel with
  | 0 => (.error .fuelOut, [])
  | fuel' + 1 =>
    if rootItemName ∈ visited then
      (.error (.circular rootItemName), [])
    else
      let rootItem := reg rootItemName
      match buildChildren reg fuel' rootItem.registryDependencies
          (rootItemName :: visited) (depth + 1) with
      | (.error e, log) => (.error e, rootItemName :: log)
      | (.ok ts, log) => (.ok (.mk rootItemName rootItem ts depth), rootItemName :: log)
termination_by (fuel, 0)

/-- The `Promise.all(registryDeps.map …)` of the source, sequentialised:
the first failing child aborts the whole list. -/
def buildChildren (reg : String → RegistryItem) (fuel : Nat)
    (deps : List String) (visited : List String) (depth : Nat) :
    Except BuildErr (List DependencyNode) × List String :=
  match deps with
  | [] => (.ok [], [])
  | d :: ds =>
    match buildDependencyTree reg fuel d visited depth with
    | (.error e, log) => (.error e, log)
    | (.ok t, log) =>
      match buildChildren reg fuel ds visited depth with
      | (.error e, log') => (.error e, log ++ log')
      | (.ok ts, log') => (.ok (t :: ts), log ++ log')
termination_by (fuel, deps.length + 1)

end

/-- The state of `calculateInstallationOrder`'s traversal: the `visited` name
set and the `result` item list. -/
abbrev VisitState := List String × List RegistryItem

/-- `calculateInstallationOrder`'s inner `visit` (registry-process.ts, lines
129–147), phrased on a worklist: `visit node` followed by the remaining
worklist.  A node already in `visited` is skipped; otherwise its children are
visited first and then the node's name and item are recorded (post-order). -/
def visitList : List DependencyNode → VisitState → VisitState
  | [], s => s
  | .mk nm it children dp :: rest, s =>
    if nm ∈ s.1 then
      visitList rest s
    else
      let s' := visitList children s
      visitList rest (nm :: s'.1, s'.2 ++ [it])
termination_by l s => sizeOf l
decreasing_by
  all_goals simp_wf
  all_goals omega

/-- `calculateInstallationOrder` (registry-process.ts, lines 129–147). -/
def calculateInstallationOrder (tree : DependencyNode) : List RegistryItem :=
  (visitList [tree] ([], [])).2

/-- The edge relation of the registry-dependency graph: `Step reg a b` holds
when `b` is listed among `a`'s registry dependencies. -/
def Step (reg : String → RegistryItem) (a b : String) : Prop :=
  b ∈ (reg a).registryDependencies

/-- `Reaches reg a b`: `b` is a proper registry-dependency descendant of `a`. -/
def Reaches (reg : String → RegistryItem) : String → String → Prop :=
  Relation.TransGen (Step reg)

/-- A dependency graph without cycles: the converse edge relation is
well-founded (equivalently, for the finite graphs the registry serves, no name
is its own proper dependency-descendant). -/
def Acyclic (reg : String → RegistryItem) : Prop :=
  WellFounded (fun b a => Step reg a b)

mutual

/-- All names occurring in a dependency tree, root first. -/
def allNames : DependencyNode → List String
  | .mk nm _ children _ => nm :: allNamesList children

def allNamesList : List DependencyNode → List String
  | [] => []
  | t :: ts => allNames t ++ allNamesList ts

end

/-- A tree is an unfolding of the registry `reg`: every node carries the item
fetched for its name and one child per registry dependency of that item, in
order.  `buildDependencyTree` only produces such trees. -/
inductive Unfolds (reg : String → RegistryItem) : DependencyNode → Prop where
  | mk : ∀ (nm : String) (children : List DependencyNode) (dp : Nat),
      children.map DependencyNode.name = (reg nm).registryDependencies →
      (∀ c ∈ children, Unfolds reg c) →
      Unfolds reg (.mk nm (reg nm) children dp)

/-- No node's name recurs among its proper descendants — the invariant the
visited-set check of `buildDependencyTree` enforces. -/
inductive AncDistinct : DependencyNode → Prop where
  | mk : ∀ (nm : String) (it : RegistryItem) (children : List DependencyNode) (dp : Nat),
      (∀ c ∈ children, nm ∉ allNames c) →
      (∀ c ∈ children, AncDistinct c) →
      AncDistinct (.mk nm it children dp)

theorem allNamesList_mem {n : String} {l : List DependencyNode} :
    n ∈ allNamesList l ↔ ∃ t ∈ l, n ∈ allNames t := by
  induction l with
  | nil => simp [allNamesList]
  | cons t ts ih => simp [allNamesList, ih]

theorem allNames_self (t : DependencyNode) : t.name ∈ allNames t := by
  cases t with
  | mk nm it children dp => simp [allNames, DependencyNode.name]

/-- Characterisation of a successful `buildDependencyTree`: the returned tree
unfolds the registry, repeats no name along any root-to-leaf path, and avoids
every name of the incoming visited set. -/
theorem build_ok_spec (reg : String → RegistryItem) :
    ∀ fuel : Nat,
      (∀ root visited depth t log,
        buildDependencyTree reg fuel root visited depth = (.ok t, log) →
        t.name = root ∧ Unfolds reg t ∧ AncDistinct t ∧
          ∀ n ∈ allNames t, n ∉ visited) ∧
      (∀ deps visited depth ts log,
        buildChildren reg fuel deps visited depth = (.ok ts, log) →
        ts.map DependencyNode.name = deps ∧
          ∀ t ∈ ts, Unfolds reg t ∧ AncDistinct t ∧ ∀ n ∈ allNames t, n ∉ visited) := by
  intro fuel
  induction fuel with
  | zero =>
    constructor
    · intro root visited depth t log h
      simp [buildDependencyTree] at h
    · intro deps visited depth ts log h
      cases deps with
      | nil =>
        rw [buildChildren] at h
        injection h with h1 h2
        injection h1 with h3
        subst h3
        exact ⟨rfl, by simp⟩
      | cons d ds =>
        simp [buildChildren, buildDependencyTree] at h
  | succ fuel ih =>
    have hbuild : ∀ root visited depth t log,
        buildDependencyTree reg (fuel + 1) root visited depth = (.ok t, log) →
        t.name = root ∧ Unfolds reg t ∧ AncDistinct t ∧
          ∀ n ∈ allNames t, n ∉ visited := by
      intro root visited depth t log h
      rw [buildDependencyTree] at h
      by_cases hv : root ∈ visited
      · simp [hv] at h
      · simp only [hv, if_false] at h
        cases hc : buildChildren reg fuel (reg root).registryDependencies
            (root :: visited) (depth + 1) with
        | mk res clog =>
          cases res with
          | error e => rw [hc] at h; simp at h
          | ok ts =>
            rw [hc] at h
            injection h with h1 h2
            injection h1 with h3
            obtain ⟨hmap, hall⟩ := ih.2 _ _ _ _ _ hc
            subst h3
            refine ⟨rfl, ?_, ?_, ?_⟩
            · exact Unfolds.mk root ts depth hmap (fun c hcm => (hall c hcm).1)
            · refine AncDistinct.mk root (reg root) ts depth ?_ ?_
              · intro c hcm hroot
                exact (hall c hcm).2.2 root hroot (by simp)
              · exact fun c hcm => (hall c hcm).2.1
            · intro n hn hnv
              simp only [allNames] at hn
              rcases List.mem_cons.mp hn with h1 | h2
              · subst h1; exact hv hnv
              · obtain ⟨c, hcm, hnc⟩ := allNamesList_mem.mp h2
                exact (hall c hcm).2.2 n hnc (by simp [hnv])
    refine ⟨hbuild, ?_⟩
    intro deps
    induction deps with
    | nil =>
      intro visited depth ts log h
      rw [buildChildren] at h
      injection h with h1 h2
      injection h1 with h3
      subst h3
      exact ⟨rfl, by simp⟩
    | cons d ds ihd =>
      intro visited depth ts log h
      rw [buildChildren] at h
      cases hb : buildDependencyTree reg (fuel + 1) d visited depth with
      | mk res blog =>
        cases res with
        | error e => rw [hb] at h; simp at h
        | ok t =>
          rw [hb] at h
          cases hrest : buildChildren reg (fuel + 1) ds visited depth with
          | mk res2 rlog =>
            cases res2 with
            | error e => rw [hrest] at h; simp at h
            | ok ts2 =>
              rw [hrest] at h
              injection h with h1 h2
              injection h1 with h3
              have hhead := hbuild _ _ _ _ _ hb
              have htail := ihd _ _ _ _ hrest
              subst h3
              constructor
              · simp [htail.1, hhead.1]
              · intro u hu
                rcases List.mem_cons.mp hu with h1 | h2
                · subst h1; exact ⟨hhead.2.1, hhead.2.2.1, hhead.2.2.2⟩
                · exact htail.2 u h2

theorem wf_no_self {α : Type} {r : α → α → Prop} (h : WellFounded r) :
    ∀ a, ¬ r a a := by
  intro a
  induction a using WellFounded.induction h with
  | _ a ih => exact fun haa => ih a haa haa

theorem acyclic_no_self (reg : String → RegistryItem) (hA : Acyclic reg)
    (x : String) : ¬ Reaches reg x x := by
  intro hx
  have h1 : WellFounded (Relation.TransGen (fun b a => Step reg a b)) :=
    hA.transGen
  exact wf_no_self h1 x (Relation.transGen_swap.mpr hx)

/-- A numeric rank witnessing acyclicity: every registry dependency of `a` has
a strictly smaller rank than `a`.  Used only to bound the recursion depth of
`buildDependencyTree`. -/
noncomputable def wfRank (reg : String → RegistryItem) (hA : Acyclic reg) :
    String → Nat :=
  WellFounded.fix hA (fun a ih =>
    ((reg a).registryDependencies.attach.map (fun b => ih b.1 b.2)).foldr max 0 + 1)

theorem le_foldr_max {l : List Nat} {x : Nat} (hx : x ∈ l) :
    x ≤ l.foldr max 0 := by
  induction l with
  | nil => simp at hx
  | cons a as ih =>
    rcases List.mem_cons.mp hx with h | h
    · subst h; exact le_max_left _ _
    · exact le_trans (ih h) (le_max_right _ _)

theorem wfRank_lt (reg : String → RegistryItem) (hA : Acyclic reg)
    {a b : String} (h : b ∈ (reg a).registryDependencies) :
    wfRank reg hA b < wfRank reg hA a := by
  have heq : wfRank reg hA a =
      ((reg a).registryDependencies.attach.map
        (fun c => wfRank reg hA c.1)).foldr max 0 + 1 := by
    unfold wfRank
    exact WellFounded.fix_eq hA _ a
  have hmem : wfRank reg hA b ∈
      (reg a).registryDependencies.attach.map (fun c => wfRank reg hA c.1) :=
    List.mem_map.mpr ⟨⟨b, h⟩, List.mem_attach _ _, rfl⟩
  rw [heq]
  exact Nat.lt_succ_of_le (le_foldr_max hmem)

theorem build_succeeds (reg : String → RegistryItem) (hA : Acyclic reg) :
    ∀ fuel root visited depth, wfRank reg hA root < fuel →
      (∀ v ∈ visited, Reaches reg v root) →
      ∃ t log, buildDependencyTree reg fuel root visited depth = (.ok t, log) := by
  intro fuel
  induction fuel with
  | zero => intro root visited depth hr; exact absurd hr (Nat.not_lt_zero _)
  | succ fuel ih =>
    intro root visited depth hr hvis
    have hroot : root ∉ visited :=
      fun hmem => acyclic_no_self reg hA root (hvis root hmem)
    have hch : ∀ deps, (∀ d ∈ deps, Step reg root d) →
        ∃ ts log,
          buildChildren reg fuel deps (root :: visited) (depth + 1) = (.ok ts, log) := by
      intro deps
      induction deps with
      | nil => intro _; exact ⟨[], [], by rw [buildChildren]⟩
      | cons d ds ihd =>
        intro hd
        have hstep : Step reg root d := hd d (by simp)
        have hrd : wfRank reg hA d < fuel :=
          lt_of_lt_of_le (wfRank_lt reg hA hstep) (Nat.lt_succ_iff.mp hr)
        have hvis' : ∀ v ∈ root :: visited, Reaches reg v d := by
          intro v hv
          rcases List.mem_cons.mp hv with h | h
          · subst h; exact Relation.TransGen.single hstep
          · exact Relation.TransGen.tail (hvis v h) hstep
        obtain ⟨t, log, hbd⟩ := ih d (root :: visited) (depth + 1) hrd hvis'
        obtain ⟨ts, log', hbc⟩ := ihd (fun x hx => hd x (by simp [hx]))
        exact ⟨t :: ts, log ++ log', by rw [buildChildren, hbd, hbc]⟩
    obtain ⟨ts, log, hbc⟩ := hch (reg root).registryDependencies (fun d hd => hd)
    refine ⟨.mk root (reg root) ts depth, root :: log, ?_⟩
    rw [buildDependencyTree]
    simp only [hroot, if_false]
    rw [hbc]

/-- Every item of the list appears strictly after all items named among its
own registry dependencies. -/
def DepClosed (R : List RegistryItem) : Prop :=
  ∀ pre x post, R = pre ++ x :: post →
    ∀ d ∈ x.registryDependencies, d ∈ pre.map RegistryItem.name

/-- The visited set is closed under registry dependencies. -/
def DepClosedV (reg : String → RegistryItem) (V : List String) : Prop :=
  ∀ n ∈ V, ∀ d ∈ (reg n).registryDependencies, d ∈ V

/-- Invariant of `calculateInstallationOrder`'s traversal: the visited set
mirrors the emitted names in reverse, holds no duplicates, and both sides are
dependency-closed. -/
def GoodState (reg : String → RegistryItem) (s : VisitState) : Prop :=
  s.1 = (s.2.map RegistryItem.name).reverse ∧ s.1.Nodup ∧
    DepClosed s.2 ∧ DepClosedV reg s.1

theorem sizeOf_lt_of_mem_children {c : DependencyNode} {nm : String}
    {it : RegistryItem} {children : List DependencyNode} {dp : Nat}
    (h : c ∈ children) : sizeOf c < sizeOf (DependencyNode.mk nm it children dp) := by
  have h1 := List.sizeOf_lt_of_mem h
  simp only [DependencyNode.mk.sizeOf_spec]
  omega

theorem allNames_subset_of_closed (reg : String → RegistryItem)
    (V : List String) (hV : DepClosedV reg V) :
    ∀ t, Unfolds reg t → t.name ∈ V → ∀ n ∈ allNames t, n ∈ V := by
  have H : ∀ k t, sizeOf t ≤ k → Unfolds reg t → t.name ∈ V →
      ∀ n ∈ allNames t, n ∈ V := by
    intro k
    induction k with
    | zero =>
      intro t hk
      cases t with
      | mk nm it children dp =>
        simp only [DependencyNode.mk.sizeOf_spec] at hk
        omega
    | succ k ih =>
      intro t hk hu hnm n hn
      cases hu with
      | mk nm children dp hmap hch =>
        simp only [DependencyNode.name] at hnm
        simp only [allNames] at hn
        rcases List.mem_cons.mp hn with h | h
        · subst h; exact hnm
        · obtain ⟨c, hcm, hnc⟩ := allNamesList_mem.mp h
          have hcsize : sizeOf c ≤ k := by
            have h1 := @sizeOf_lt_of_mem_children c nm (reg nm) children dp hcm
            omega
          have hcname : c.name ∈ V := by
            apply hV nm hnm
            rw [← hmap]
            exact List.mem_map_of_mem _ hcm
          exact ih c hcsize (hch c hcm) hcname n hnc
  exact fun t => H (sizeOf t) t le_rfl

theorem append_singleton_decomp {α : Type} {R : List α} {y : α}
    {pre : List α} {x : α} {post : List α} (h : R ++ [y] = pre ++ x :: post) :
    (∃ post', R = pre ++ x :: post' ∧ post = post' ++ [y]) ∨
      (pre = R ∧ x = y ∧ post = []) := by
  rcases List.eq_nil_or_concat post with hp | ⟨post', a, hp⟩
  · subst hp
    right
    have h2 := List.append_inj' (by simpa using h :
      R ++ [y] = pre ++ [x]) (by simp)
    have h3 : y = x := by injection h2.2 with h4
    exact ⟨h2.1.symm, h3.symm, rfl⟩
  · subst hp
    left
    have h1 : R ++ [y] = (pre ++ x :: post') ++ [a] := by
      simpa using h
    have h2 := List.append_inj' h1 (by simp)
    have h3 : y = a := by injection h2.2 with h4
    exact ⟨post', h2.1, by simp [h3]⟩

/-- Main invariant of the topological-sort traversal: starting from a good
state, visiting a worklist of registry-unfolded, ancestor-distinct trees
preserves the invariant, only grows the visited set, records every name of
every tree in the worklist, and adds no name from outside the worklist. -/
theorem visitList_spec (reg : String → RegistryItem)
    (hreg : ∀ n, (reg n).name = n) :
    ∀ (l : List DependencyNode) (s : VisitState),
      (∀ t ∈ l, Unfolds reg t ∧ AncDistinct t) → GoodState reg s →
      GoodState reg (visitList l s) ∧
        (∀ n ∈ s.1, n ∈ (visitList l s).1) ∧
        (∀ t ∈ l, ∀ n ∈ allNames t, n ∈ (visitList l s).1) ∧
        (∀ n ∈ (visitList l s).1, n ∈ s.1 ∨ ∃ t ∈ l, n ∈ allNames t) := by
  intro l s
  induction l, s using visitList.induct with
  | case1 s =>
    intro _ hgs
    simp only [visitList]
    exact ⟨hgs, fun n hn => hn, by simp, fun n hn => Or.inl hn⟩
  | case2 nm it children dp rest s hmem ih =>
    intro hl hgs
    have heq : visitList (DependencyNode.mk nm it children dp :: rest) s =
        visitList rest s := by
      rw [visitList, if_pos hmem]
    have hnode := hl _ (List.mem_cons_self _ _)
    have hrest : ∀ t ∈ rest, Unfolds reg t ∧ AncDistinct t :=
      fun t ht => hl t (List.mem_cons_of_mem _ ht)
    obtain ⟨g1, g2, g3, g4⟩ := ih hrest hgs
    rw [heq]
    refine ⟨g1, g2, ?_, ?_⟩
    · intro t ht n hn
      rcases List.mem_cons.mp ht with h | h
      · subst h
        have hsub := allNames_subset_of_closed reg s.1 hgs.2.2.2
          (DependencyNode.mk nm it children dp) hnode.1
          (by simpa [DependencyNode.name] using hmem)
        exact g2 n (hsub n hn)
      · exact g3 t h n hn
    · intro n hn
      rcases g4 n hn with h | ⟨t, ht, hnt⟩
      · exact Or.inl h
      · exact Or.inr ⟨t, List.mem_cons_of_mem _ ht, hnt⟩
  | case3 nm it children dp rest s hmem s' ih1 ih2 =>
    intro hl hgs
    have hnode := hl _ (List.mem_cons_self _ _)
    have hrest : ∀ t ∈ rest, Unfolds reg t ∧ AncDistinct t :=
      fun t ht => hl t (List.mem_cons_of_mem _ ht)
    obtain ⟨hU, hD⟩ := hnode
    cases hU with
    | mk _ _ _ hmap hch =>
      cases hD with
      | mk _ _ _ _ hanc hdall =>
        obtain ⟨c1, c2, c3, c4⟩ := ih1 (fun c hc => ⟨hch c hc, hdall c hc⟩) hgs
        have hdepsub : ∀ d ∈ (reg nm).registryDependencies,
            d ∈ (visitList children s).1 := by
          intro d hd
          rw [← hmap] at hd
          obtain ⟨c, hc, hdc⟩ := List.mem_map.mp hd
          rw [← hdc]
          exact c3 c hc c.name (allNames_self c)
        have hnotin : nm ∉ (visitList children s).1 := by
          intro hn
          rcases c4 nm hn with h | ⟨c, hc, hnc⟩
          · exact hmem h
          · exact hanc c hc hnc
        have hgps : GoodState reg
            (nm :: (visitList children s).1,
              (visitList children s).2 ++ [reg nm]) := by
          refine ⟨?_, ?_, ?_, ?_⟩
          · show nm :: (visitList children s).1 =
              (((visitList children s).2 ++ [reg nm]).map RegistryItem.name).reverse
            rw [c1.1]
            simp [hreg nm]
          · exact List.nodup_cons.mpr ⟨hnotin, c1.2.1⟩
          · intro pre x post hdec d hd
            rcases append_singleton_decomp hdec with ⟨post', hR, _⟩ | ⟨hpre, hx, _⟩
            · exact c1.2.2.1 pre x post' hR d hd
            · subst hpre
              rw [hx] at hd
              have hd1 := hdepsub d hd
              rw [c1.1] at hd1
              exact List.mem_reverse.mp hd1
          · intro n hn d hd
            rcases List.mem_cons.mp hn with h | h
            · subst h
              exact List.mem_cons_of_mem _ (hdepsub d hd)
            · exact List.mem_cons_of_mem _ (c1.2.2.2 n h d hd)
        obtain ⟨d1, d2, d3, d4⟩ := ih2 hrest hgps
        have heq : visitList (DependencyNode.mk nm (reg nm) children dp :: rest) s =
            visitList rest
              (nm :: (visitList children s).1,
                (visitList children s).2 ++ [reg nm]) := by
          rw [visitList, if_neg hmem]
        rw [heq]
        refine ⟨d1, ?_, ?_, ?_⟩
        · intro n hn
          exact d2 n (List.mem_cons_of_mem _ (c2 n hn))
        · intro t ht n hn
          rcases List.mem_cons.mp ht with h | h
          · subst h
            simp only [allNames] at hn
            rcases List.mem_cons.mp hn with h1 | h1
            · subst h1
              exact d2 n (List.mem_cons_self _ _)
            · obtain ⟨c, hc, hnc⟩ := allNamesList_mem.mp h1
              exact d2 n (List.mem_cons_of_mem _ (c3 c hc n hnc))
          · exact d3 t h n hn
        · intro n hn
          rcases d4 n hn with h | ⟨t, ht, hnt⟩
          · rcases List.mem_cons.mp h with h1 | h1
            · subst h1
              exact Or.inr ⟨DependencyNode.mk n (reg n) children dp,
                List.mem_cons_self _ _, by simp [allNames]⟩
            · rcases c4 n h1 with h2 | ⟨c, hc, hnc⟩
              · exact Or.inl h2
              · exact Or.inr ⟨DependencyNode.mk nm (reg nm) children dp,
                  List.mem_cons_self _ _,
                  by simp only [allNames]
                     exact List.mem_cons_of_mem _ (allNamesList_mem.mpr ⟨c, hc, hnc⟩)⟩
          · exact Or.inr ⟨t, List.mem_cons_of_mem _ ht, hnt⟩

/-- The installation order computed from a registry-unfolded,
ancestor-distinct tree is duplicate-free, dependency-first, and covers every
name in the tree. -/
theorem installationOrder_spec (reg : String → RegistryItem)
    (hreg : ∀ n, (reg n).name = n) (t : DependencyNode)
    (hU : Unfolds reg t) (hD : AncDistinct t) :
    ((calculateInstallationOrder t).map RegistryItem.name).Nodup ∧
      (∀ pre x post, calculateInstallationOrder t = pre ++ x :: post →
        ∀ d ∈ x.registryDependencies, d ∈ pre.map RegistryItem.name) ∧
      (∀ n ∈ allNames t, n ∈ (calculateInstallationOrder t).map RegistryItem.name) := by
  have hgs0 : GoodState reg ([], []) := by
    refine ⟨rfl, List.nodup_nil, ?_, ?_⟩
    · intro pre x post h
      simp at h
    · intro n hn
      simp at hn
  obtain ⟨g1, g2, g3, g4⟩ :=
    visitList_spec reg hreg [t] ([], []) (by simpa using ⟨hU, hD⟩) hgs0
  have hcoup := g1.1
  refine ⟨?_, ?_, ?_⟩
  · have hnd := g1.2.1
    rw [hcoup] at hnd
    simpa [calculateInstallationOrder] using List.nodup_reverse.mp hnd
  · intro pre x post h d hd
    exact g1.2.2.1 pre x post (by simpa [calculateInstallationOrder] using h) d hd
  · intro n hn
    have h1 := g3 t (by simp) n hn
    rw [hcoup] at h1
    simpa [calculateInstallationOrder] using List.mem_reverse.mp h1

/-- A concrete diamond-shaped registry: `a → b, c`; `b → d`; `c → d`. -/
def diamondReg : String → RegistryItem := fun n =>
  if n = "a" then { name := "a", registryDependencies := ["b", "c"] }
  else if n = "b" then { name := "b", registryDependencies := ["d"] }
  else if n = "c" then { name := "c", registryDependencies := ["d"] }
  else { name := n }

def diamondRank : String → Nat := fun n =>
  if n = "a" then 2 else if n = "b" then 1 else if n = "c" then 1 else 0

theorem diamondReg_name : ∀ n, (diamondReg n).name = n := by
  intro n
  simp only [diamondReg]
  split_ifs with h1 h2 h3 <;> simp_all

theorem diamondReg_acyclic : Acyclic diamondReg := by
  have hsub : ∀ b a, Step diamondReg a b → diamondRank b < diamondRank a := by
    intro b a h
    unfold Step diamondReg at h
    split_ifs at h with h1 h2 h3
    · subst h1
      simp at h
      rcases h with h | h <;> subst h <;> simp [diamondRank]
    · subst h2
      simp at h
      subst h
      simp [diamondRank]
    · subst h3
      simp at h
      subst h
      simp [diamondRank]
    · simp at h
  exact Subrelation.wf (fun {b a} h => hsub b a h) (measure diamondRank).wf

/-- Every element of a successfully built child list was itself built
successfully. -/
theorem buildChildren_ok_elem (reg : String → RegistryItem) (fuel : Nat) :
    ∀ deps visited depth ts log,
      buildChildren reg fuel deps visited depth = (.ok ts, log) →
      ∀ d ∈ deps, ∃ t' log',
        buildDependencyTree reg fuel d visited depth = (.ok t', log') := by
  intro deps
  induction deps with
  | nil => intro visited depth ts log h d hd; simp at hd
  | cons d0 ds ih =>
    intro visited depth ts log h d hd
    rw [buildChildren] at h
    cases hb : buildDependencyTree reg fuel d0 visited depth with
    | mk res blog =>
      cases res with
      | error e => rw [hb] at h; simp at h
      | ok t =>
        rw [hb] at h
        cases hrest : buildChildren reg fuel ds visited depth with
        | mk res2 rlog =>
          cases res2 with
          | error e => rw [hrest] at h; simp at h
          | ok ts2 =>
            rcases List.mem_cons.mp hd with h1 | h1
            · subst h1; exact ⟨t, blog, hb⟩
            · exact ih visited depth ts2 rlog hrest d h1

/-- Along any dependency path out of a successfully built root, each
intermediate name admits a successful build whose visited set contains the
path's start. -/
theorem build_ok_along_path (reg : String → RegistryItem) :
    ∀ fuel x visited depth t log,
      buildDependencyTree reg fuel x visited depth = (.ok t, log) →
      ∀ y, Reaches reg x y →
        ∃ fuel' visited' depth' t' log',
          buildDependencyTree reg fuel' y visited' depth' = (.ok t', log') ∧
            x ∈ visited' := by
  intro fuel x visited depth t log h y hreach
  have hstep1 : ∀ fuel₀ z visited₀ depth₀ t₀ log₀,
      buildDependencyTree reg fuel₀ z visited₀ depth₀ = (.ok t₀, log₀) →
      ∀ w, Step reg z w →
        ∃ fuel' log' t',
          buildDependencyTree reg fuel' w (z :: visited₀) (depth₀ + 1) = (.ok t', log') := by
    intro fuel₀ z visited₀ depth₀ t₀ log₀ h0 w hw
    cases fuel₀ with
    | zero => simp [buildDependencyTree] at h0
    | succ f =>
      rw [buildDependencyTree] at h0
      by_cases hz : z ∈ visited₀
      · simp [hz] at h0
      · simp only [hz, if_false] at h0
        cases hc : buildChildren reg f (reg z).registryDependencies
            (z :: visited₀) (depth₀ + 1) with
        | mk res clog =>
          cases res with
          | error e => rw [hc] at h0; simp at h0
          | ok ts =>
            obtain ⟨t', log', hb⟩ :=
              buildChildren_ok_elem reg f _ _ _ _ _ hc w hw
            exact ⟨f, log', t', hb⟩
  induction hreach with
  | single hstep =>
    obtain ⟨f, l, t', hb⟩ := hstep1 fuel x visited depth t log h _ hstep
    exact ⟨f, x :: visited, depth + 1, t', l, hb, List.mem_cons_self _ _⟩
  | tail hxz hstep ih =>
    obtain ⟨f, v, d, t', l, hb, hxv⟩ := ih
    obtain ⟨f2, l2, t2, hb2⟩ := hstep1 f _ v d t' l hb _ hstep
    exact ⟨f2, _ :: v, d + 1, t2, l2, hb2, List.mem_cons_of_mem _ hxv⟩

/-- A circular-dependency rejection always names an item that genuinely lies
on a dependency cycle, provided every name of the incoming visited set
reaches the current root. -/
theorem build_err_circular (reg : String → RegistryItem) :
    ∀ fuel : Nat,
      (∀ root visited depth x log,
        buildDependencyTree reg fuel root visited depth = (.error (.circular x), log) →
        (∀ v ∈ visited, Reaches reg v root) → Reaches reg x x) ∧
      (∀ deps visited depth x log,
        buildChildren reg fuel deps visited depth = (.error (.circular x), log) →
        (∀ d ∈ deps, ∀ v ∈ visited, Reaches reg v d) → Reaches reg x x) := by
  intro fuel
  induction fuel with
  | zero =>
    constructor
    · intro root visited depth x log h
      simp [buildDependencyTree] at h
    · intro deps visited depth x log h hvis
      induction deps with
      | nil => rw [buildChildren] at h; simp at h
      | cons d ds ihd =>
        rw [buildChildren] at h
        simp only [buildDependencyTree] at h
        simp at h
  | succ fuel ih =>
    have hbuild : ∀ root visited depth x log,
        buildDependencyTree reg (fuel + 1) root visited depth = (.error (.circular x), log) →
        (∀ v ∈ visited, Reaches reg v root) → Reaches reg x x := by
      intro root visited depth x log h hvis
      rw [buildDependencyTree] at h
      by_cases hv : root ∈ visited
      · rw [if_pos hv] at h
        injection h with h1 h2
        injection h1 with h3
        injection h3 with h4
        subst h4
        exact hvis root hv
      · simp only [hv, if_false] at h
        cases hc : buildChildren reg fuel (reg root).registryDependencies
            (root :: visited) (depth + 1) with
        | mk res clog =>
          cases res with
          | ok ts => rw [hc] at h; simp at h
          | error e =>
            rw [hc] at h
            injection h with h1 h2
            injection h1 with h3
            subst h3
            refine ih.2 _ _ _ _ _ hc ?_
            intro d hd v hvmem
            rcases List.mem_cons.mp hvmem with h1 | h1
            · subst h1
              exact Relation.TransGen.single hd
            · exact Relation.TransGen.tail (hvis v h1) hd
    refine ⟨hbuild, ?_⟩
    intro deps
    induction deps with
    | nil =>
      intro visited depth x log h
      rw [buildChildren] at h
      simp at h
    | cons d ds ihd =>
      intro visited depth x log h hvis
      rw [buildChildren] at h
      cases hb : buildDependencyTree reg (fuel + 1) d visited depth with
      | mk res blog =>
        cases res with
        | error e =>
          rw [hb] at h
          injection h with h1 h2
          injection h1 with h3
          subst h3
          exact hbuild _ _ _ _ _ hb (fun v hv => hvis d (by simp) v hv)
        | ok t =>
          rw [hb] at h
          cases hrest : buildChildren reg (fuel + 1) ds visited depth with
          | mk res2 rlog =>
            cases res2 with
            | ok ts2 => rw [hrest] at h; simp at h
            | error e =>
              rw [hrest] at h
              injection h with h1 h2
              injection h1 with h3
              subst h3
              exact ihd _ _ _ _ hrest (fun d' hd' v hv => hvis d' (by simp [hd']) v hv)

/-- Number of names of `N` not yet visited — the measure that bounds how much
fuel `buildDependencyTree` can consume before every name is visited. -/
def freshCount (N visited : List String) : Nat :=
  N.countP (fun n => decide (¬ n ∈ visited))

theorem countP_mono_pred {α : Type} (p q : α → Bool)
    (hpq : ∀ a, p a = true → q a = true) :
    ∀ l : List α, l.countP p ≤ l.countP q := by
  intro l
  induction l with
  | nil => simp
  | cons a as ih =>
    rw [List.countP_cons, List.countP_cons]
    by_cases h : p a = true
    · rw [if_pos h, if_pos (hpq a h)]
      omega
    · rw [if_neg h]
      by_cases h2 : q a = true
      · rw [if_pos h2]; omega
      · rw [if_neg h2]; omega

theorem countP_lt_pred {α : Type} (p q : α → Bool)
    (hpq : ∀ a, p a = true → q a = true) :
    ∀ {l : List α} {a0 : α}, a0 ∈ l → p a0 = false → q a0 = true →
      l.countP p < l.countP q := by
  intro l
  induction l with
  | nil => intro a0 h; simp at h
  | cons a as ih =>
    intro a0 ha0 hp0 hq0
    rw [List.countP_cons, List.countP_cons]
    rcases List.mem_cons.mp ha0 with h | h
    · subst h
      have hle := countP_mono_pred p q hpq as
      rw [if_neg (by simp [hp0]), if_pos hq0]
      omega
    · have hlt := ih h hp0 hq0
      by_cases hpa : p a = true
      · rw [if_pos hpa, if_pos (hpq a hpa)]
        omega
      · rw [if_neg hpa]
        by_cases hqa : q a = true
        · rw [if_pos hqa]; omega
        · rw [if_neg hqa]; omega

theorem freshCount_cons_lt (root : String) (visited : List String)
    (hv : root ∉ visited) (N : List String) (hN : root ∈ N) :
    freshCount N (root :: visited) < freshCount N visited := by
  refine countP_lt_pred _ _ ?_ hN ?_ ?_
  · intro a ha
    rw [decide_eq_true_iff] at ha ⊢
    exact fun hmem => ha (List.mem_cons_of_mem _ hmem)
  · simp
  · simpa using hv

/-- With fuel exceeding the number of unvisited known names, a build never
runs out of fuel: it either succeeds or raises the circular-dependency
rejection. -/
theorem build_dichotomy (reg : String → RegistryItem) (N : List String)
    (hclosed : ∀ a ∈ N, ∀ b ∈ (reg a).registryDependencies, b ∈ N) :
    ∀ fuel : Nat,
      (∀ root visited depth, root ∈ N → freshCount N visited < fuel →
        (∃ t log, buildDependencyTree reg fuel root visited depth = (.ok t, log)) ∨
        (∃ x log, buildDependencyTree reg fuel root visited depth =
          (.error (.circular x), log))) ∧
      (∀ deps visited depth, (∀ d ∈ deps, d ∈ N) → freshCount N visited < fuel →
        (∃ ts log, buildChildren reg fuel deps visited depth = (.ok ts, log)) ∨
        (∃ x log, buildChildren reg fuel deps visited depth =
          (.error (.circular x), log))) := by
  intro fuel
  induction fuel with
  | zero =>
    constructor
    · intro root visited depth _ hb
      exact absurd hb (Nat.not_lt_zero _)
    · intro deps visited depth _ hb
      exact absurd hb (Nat.not_lt_zero _)
  | succ fuel ih =>
    have hbuild : ∀ root visited depth, root ∈ N → freshCount N visited < fuel + 1 →
        (∃ t log, buildDependencyTree reg (fuel + 1) root visited depth = (.ok t, log)) ∨
        (∃ x log, buildDependencyTree reg (fuel + 1) root visited depth =
          (.error (.circular x), log)) := by
      intro root visited depth hrootN hfc
      by_cases hv : root ∈ visited
      · right
        exact ⟨root, [], by rw [buildDependencyTree, if_pos hv]⟩
      · have hfc' : freshCount N (root :: visited) < fuel :=
          lt_of_lt_of_le (freshCount_cons_lt root visited hv N hrootN)
            (Nat.lt_succ_iff.mp hfc)
        rcases ih.2 (reg root).registryDependencies (root :: visited) (depth + 1)
            (fun d hd => hclosed root hrootN d hd) hfc' with
          ⟨ts, log, hc⟩ | ⟨x, log, hc⟩
        · left
          exact ⟨.mk root (reg root) ts depth, root :: log, by
            rw [buildDependencyTree]
            simp only [hv, if_false]
            rw [hc]⟩
        · right
          exact ⟨x, root :: log, by
            rw [buildDependencyTree]
            simp only [hv, if_false]
            rw [hc]⟩
    refine ⟨hbuild, ?_⟩
    intro deps
    induction deps with
    | nil =>
      intro visited depth _ _
      left
      exact ⟨[], [], by rw [buildChildren]⟩
    | cons d ds ihd =>
      intro visited depth hdN hfc
      rcases hbuild d visited depth (hdN d (by simp)) hfc with
        ⟨t, log, hb⟩ | ⟨x, log, hb⟩
      · rcases ihd visited depth (fun d' hd' => hdN d' (by simp [hd'])) hfc with
          ⟨ts, log', hc⟩ | ⟨x, log', hc⟩
        · left
          exact ⟨t :: ts, log ++ log', by rw [buildChildren, hb, hc]⟩
        · right
          exact ⟨x, log ++ log', by rw [buildChildren, hb, hc]⟩
      · right
        exact ⟨x, log, by rw [buildChildren, hb]⟩

/-- No successful build can coexist with a reachable dependency cycle. -/
theorem no_cycle_of_build_ok (reg : String → RegistryItem)
    {fuel : Nat} {root : String} {visited : List String} {depth : Nat}
    {t : DependencyNode} {log : List String}
    (h : buildDependencyTree reg fuel root visited depth = (.ok t, log))
    {c : String} (hc : c = root ∨ Reaches reg root c)
    (hcc : Reaches reg c c) : False := by
  have hbc : ∃ fuel' visited' depth' t' log',
      buildDependencyTree reg fuel' c visited' depth' = (.ok t', log') := by
    rcases hc with rfl | hrc
    · exact ⟨fuel, visited, depth, t, log, h⟩
    · obtain ⟨f, v, d, t', l', hb, _⟩ :=
        build_ok_along_path reg fuel root visited depth t log h c hrc
      exact ⟨f, v, d, t', l', hb⟩
  obtain ⟨f, v, d, t', l', hb⟩ := hbc
  obtain ⟨f2, v2, d2, t2, l2, hb2, hcv⟩ :=
    build_ok_along_path reg f c v d t' l' hb c hcc
  cases f2 with
  | zero => simp [buildDependencyTree] at hb2
  | succ f2 =>
    rw [buildDependencyTree, if_pos hcv] at hb2
    simp at hb2

/-- A registry whose only edge is the self-loop `A → A`. -/
def selfLoopReg : String → RegistryItem := fun n =>
  if n = "A" then { name := "A", registryDependencies := ["A"] }
  else { name := n }

/-- C1: for every dependency graph without cycles — every fetch of a named
item succeeding and returning that item's fixed `RegistryItem` —
`buildDependencyTree` terminates successfully (in particular, a diamond is not
reported as a cycle, since each branch carries its own visited set), and
`calculateInstallationOrder` on the resulting tree lists each item name
exactly once, with every item strictly after all items named in its own
`registryDependencies`. -/
theorem c1_acyclic_build_and_install_order (reg : String → RegistryItem)
    (hreg : ∀ n, (reg n).name = n) (hA : Acyclic reg) (root : String) :
    ∃ fuel t log,
      (buildDependencyTree reg fuel root [] 0 = (.ok t, log)) ∧
      ((calculateInstallationOrder t).map RegistryItem.name).Nodup ∧
      (∀ n ∈ allNames t,
        n ∈ (calculateInstallationOrder t).map RegistryItem.name) ∧
      (∀ pre x post, calculateInstallationOrder t = pre ++ x :: post →
        ∀ d ∈ x.registryDependencies, d ∈ pre.map RegistryItem.name) := by
  obtain ⟨t, log, hb⟩ := build_succeeds reg hA (wfRank reg hA root + 1) root [] 0
    (Nat.lt_succ_self _) (by simp)
  obtain ⟨hname, hU, hD, _⟩ := (build_ok_spec reg _).1 _ _ _ _ _ hb
  obtain ⟨n1, n2, n3⟩ := installationOrder_spec reg hreg t hU hD
  exact ⟨_, t, log, hb, n1, n3, n2⟩

/-- Witness for C1 at the concrete diamond registry `a → b, c`; `b → d`;
`c → d`, rooted at `a`. -/
theorem c1_acyclic_build_and_install_order_witness :
    ∃ fuel t log,
      (buildDependencyTree diamondReg fuel "a" [] 0 = (.ok t, log)) ∧
      ((calculateInstallationOrder t).map RegistryItem.name).Nodup ∧
      (∀ n ∈ allNames t,
        n ∈ (calculateInstallationOrder t).map RegistryItem.name) ∧
      (∀ pre x post, calculateInstallationOrder t = pre ++ x :: post →
        ∀ d ∈ x.registryDependencies, d ∈ pre.map RegistryItem.name) :=
  c1_acyclic_build_and_install_order diamondReg diamondReg_name
    diamondReg_acyclic "a"

/-- C2: when the registry-dependency graph reachable from the start makes
some item its own ancestor, `buildDependencyTree` rejects with a
circular-dependency error naming an item that lies on a cycle; for the
self-loop `A → A` the rejection happens after exactly one fetch (the fetch
log is `[A]`), so no further fetch of the offending item is performed. -/
theorem c2_circular_rejection (reg : String → RegistryItem) (N : List String)
    (root : String) (hroot : root ∈ N)
    (hclosed : ∀ a ∈ N, ∀ b ∈ (reg a).registryDependencies, b ∈ N)
    (hcyc : ∃ c, (c = root ∨ Reaches reg root c) ∧ Reaches reg c c) :
    (∀ fuel, freshCount N [] < fuel →
      ∃ x log,
        buildDependencyTree reg fuel root [] 0 = (.error (.circular x), log) ∧
          Reaches reg x x) ∧
    (∀ A, (reg A).registryDependencies = [A] → ∀ fuel, 2 ≤ fuel →
      buildDependencyTree reg fuel A [] 0 = (.error (.circular A), [A])) := by
  constructor
  · intro fuel hfc
    rcases (build_dichotomy reg N hclosed fuel).1 root [] 0 hroot hfc with
      ⟨t, log, hb⟩ | ⟨x, log, hb⟩
    · obtain ⟨c, hc, hcc⟩ := hcyc
      exact (no_cycle_of_build_ok reg hb hc hcc).elim
    · refine ⟨x, log, hb, ?_⟩
      exact (build_err_circular reg fuel).1 root [] 0 x log hb (by simp)
  · intro A hA fuel hfuel
    obtain ⟨f, rfl⟩ : ∃ f, fuel = f + 2 := ⟨fuel - 2, by omega⟩
    have h1 : buildDependencyTree reg (f + 1) A [A] 1 =
        (.error (.circular A), []) := by
      rw [buildDependencyTree, if_pos (List.mem_cons_self A [])]
    have h2 : buildChildren reg (f + 1) [A] [A] 1 =
        (.error (.circular A), []) := by
      rw [buildChildren, h1]
    rw [buildDependencyTree, if_neg (List.not_mem_nil A)]
    simp only [hA, h2]

/-- Witness for C2 at the concrete self-loop registry `A → A`. -/
theorem c2_circular_rejection_witness :
    (∃ x log,
      buildDependencyTree selfLoopReg 2 "A" [] 0 = (.error (.circular x), log) ∧
        Reaches selfLoopReg x x) ∧
    buildDependencyTree selfLoopReg 2 "A" [] 0 =
      (.error (.circular "A"), ["A"]) := by
  have h := c2_circular_rejection selfLoopReg ["A"] "A" (by simp)
    (by
      intro a ha b hb
      simp at ha
      subst ha
      simp [selfLoopReg] at hb
      simp [hb])
    ⟨"A", Or.inl rfl, Relation.TransGen.single
      (show "A" ∈ (selfLoopReg "A").registryDependencies by simp [selfLoopReg])⟩
  exact ⟨h.1 2 (by decide), h.2 "A" (by simp [selfLoopReg]) 2 le_rfl⟩

/-! ### Content rewriting — `replaceRegistryPaths` (registry-processor.ts 373–499)

The source builds, per directory-role mapping, one regular expression per
statement form (`from`, `import`, CSS `@import`, dynamic `import(`,
`require(`) matching `['"](?:@\/)?registry\/[^/]+\/<dir>\/` after the form's
literal prefix, replaces every occurrence, and finally normalizes the quote
style of every alias-prefixed (`@/…`) import to double quotes.  The scanners
below implement exactly those patterns, with JavaScript's global-replace
semantics: leftmost match, replacement never rescanned. -/

def isQuoteChar (c : Char) : Bool := c = '\'' || c = '"'

/-- `stripPrefixCL p s = some r` exactly when `s = p ++ r`. -/
def stripPrefixCL : List Char → List Char → Option (List Char)
  | [], s => some s
  | _ :: _, [] => none
  | p :: ps, c :: cs => if p = c then stripPrefixCL ps cs else none

/-- Left-to-right, non-overlapping global replacement: at each position try
the matcher; on a match emit the replacement and resume after the matched
text (the replacement is never rescanned), as JavaScript `String.replace`
with a `g` flag does.  Structural recursion on a fuel that starts at the
input length, so the kernel can evaluate it. -/
def scanReplaceF (tryMatch : List Char → Option (List Char × List Char)) :
    Nat → List Char → List Char
  | 0, s => s
  | fuel + 1, s =>
    match s with
    | [] => []
    | c :: cs =>
      match tryMatch (c :: cs) with
      | some (e, r) => e ++ scanReplaceF tryMatch fuel (cs.drop (cs.length - r.length))
      | none => c :: scanReplaceF tryMatch fuel cs

def scanReplace (tryMatch : List Char → Option (List Char × List Char))
    (s : List Char) : List Char :=
  scanReplaceF tryMatch s.length s

/-- The value of `scanReplaceF` does not depend on the fuel once the fuel
covers the input length. -/
theorem scanReplaceF_fuel_irrel (tryMatch : List Char → Option (List Char × List Char)) :
    ∀ fuel fuel' s, s.length ≤ fuel → s.length ≤ fuel' →
      scanReplaceF tryMatch fuel s = scanReplaceF tryMatch fuel' s := by
  intro fuel
  induction fuel with
  | zero =>
    intro fuel' s h h'
    have hs : s = [] := List.eq_nil_of_length_eq_zero (Nat.le_zero.mp h)
    subst hs
    cases fuel' <;> rfl
  | succ fuel ih =>
    intro fuel' s h h'
    cases s with
    | nil => cases fuel' <;> rfl
    | cons c cs =>
      cases fuel' with
      | zero => simp at h'
      | succ fuel' =>
        rw [scanReplaceF, scanReplaceF]
        cases hm : tryMatch (c :: cs) with
        | some er =>
          cases er with
          | mk e r =>
            have hlen : (cs.drop (cs.length - r.length)).length ≤ cs.length := by
              rw [List.length_drop]
              omega
            simp only
            rw [ih fuel' _ (by simp at h; omega) (by simp at h'; omega)]
        | none =>
          simp only
          rw [ih fuel' cs (by simp at h; omega) (by simp at h'; omega)]

/-- Matcher for one generated prefix-rewrite pattern
`<pre>['"](?:@\/)?registry\/[^/]+\/<dir>\/` (lines 433–466): returns the text
following the matched prefix.  The optional `@/` and the single-segment
wildcard `[^/]+` commit greedily, which coincides with the regex's
backtracking semantics here. -/
def matchRole (pre dir : List Char) (s : List Char) : Option (List Char) :=
  match stripPrefixCL pre s with
  | none => none
  | some s1 =>
    match s1 with
    | [] => none
    | q :: s2 =>
      if isQuoteChar q then
        let s3 := match stripPrefixCL ['@', '/'] s2 with
          | some t => t
          | none => s2
        match stripPrefixCL "registry/".toList s3 with
        | none => none
        | some s4 =>
          match s4.takeWhile (fun c => c != '/') with
          | [] => none
          | _ :: _ =>
            match stripPrefixCL ['/'] (s4.dropWhile (fun c => c != '/')) with
            | none => none
            | some s5 =>
              match stripPrefixCL (dir ++ ['/']) s5 with
              | none => none
              | some s6 => some s6
      else none

/-- One prefix-rewrite pass; the replacement template is
`<pre>'<alias>/` (single quote), as in the source. -/
def rolePass (pre dir targetAlias : List Char) (content : List Char) : List Char :=
  scanReplace (fun s => (matchRole pre dir s).map
    (fun r => (pre ++ '\'' :: (targetAlias ++ ['/']), r))) content

/-- Matcher for a quote-normalization pattern
`<pre>['"](@\/[^'"]+)['"]` (optionally followed by `)` for the dynamic-import
form), returning the captured path after `@/` and the rest. -/
def matchNorm (pre : List Char) (withParen : Bool) (s : List Char) :
    Option (List Char × List Char) :=
  match stripPrefixCL pre s with
  | none => none
  | some s1 =>
    match s1 with
    | [] => none
    | q :: s2 =>
      if isQuoteChar q then
        match stripPrefixCL ['@', '/'] s2 with
        | none => none
        | some s3 =>
          match s3.takeWhile (fun c => !(isQuoteChar c)) with
          | [] => none
          | _ :: _ =>
            match s3.dropWhile (fun c => !(isQuoteChar c)) with
            | [] => none
            | q2 :: s4 =>
              if isQuoteChar q2 then
                if withParen then
                  match s4 with
                  | ')' :: s5 => some (s3.takeWhile (fun c => !(isQuoteChar c)), s5)
                  | _ => none
                else some (s3.takeWhile (fun c => !(isQuoteChar c)), s4)
              else none
      else none

/-- One quote-normalization pass; the replacement is
`<pre>"@/<path>"` (plus `)` for the dynamic-import form). -/
def normPass (pre : List Char) (withParen : Bool) (content : List Char) :
    List Char :=
  scanReplace (fun s => (matchNorm pre withParen s).map
    (fun pr => (pre ++ '"' :: '@' :: '/' ::
      (pr.1 ++ '"' :: (if withParen then [')'] else [])), pr.2))) content

/-- The default directory mappings of `replaceRegistryPaths` (lines 379–387). -/
def defaultMappings : List (String × String) :=
  [("components", "@/components"), ("lib", "@/lib"),
   ("blocks", "@/components/blocks"), ("hooks", "@/hooks"),
   ("ui", "@/components/ui")]

/-- Directory mappings derived from a `components.json` alias table
(lines 393–423): the `ui` alias key maps to the `components` directory and the
original key is kept as a second mapping; an empty result falls back to the
defaults. -/
def mappingsOf (aliases : Option (List (String × String))) :
    List (String × String) :=
  match aliases with
  | none => defaultMappings
  | some al =>
    let ms := List.flatten (al.map (fun kv =>
      let directoryName := if kv.1 = "ui" then "components" else kv.1
      if directoryName ≠ kv.1 then [(directoryName, kv.2), (kv.1, kv.2)]
      else [(directoryName, kv.2)]))
    if ms.isEmpty then defaultMappings else ms

/-- The statement-form prefixes, in the order the source pushes the
patterns: `from`, `import`, CSS `@import`, dynamic `import(`, `require(`. -/
def stmtPrefixes : List String :=
  ["from ", "import ", "@import ", "import(", "require("]

/-- All generated prefix-rewrite passes, applied in source order
(mapping-major, then statement form). -/
def applyRolePasses (maps : List (String × String)) (content : List Char) :
    List Char :=
  (List.flatten (maps.map (fun m => stmtPrefixes.map (fun pre => (pre, m))))).foldl
    (fun acc pm => rolePass pm.1.toList pm.2.1.toList pm.2.2.toList acc) content

/-- The four quote-normalization passes of lines 477–497, in source order:
`from`, `import`, dynamic `import(…)`, `@import`. -/
def normalizeQuotes (content : List Char) : List Char :=
  normPass "@import ".toList false
    (normPass "import(".toList true
      (normPass "import ".toList false
        (normPass "from ".toList false content)))

/-- `replaceRegistryPaths` (lines 373–499). -/
def replaceRegistryPaths (aliases : Option (List (String × String)))
    (content : String) : String :=
  if content = "" then content
  else String.mk (normalizeQuotes (applyRolePasses (mappingsOf aliases) content.toList))

/-! ### Path resolution — `resolveTargetPath` (registry-processor.ts 333–372)

`node:path`'s `resolve` is modelled, for the relative segments this code
joins, as `/`-interpolation; `String.replace` with a plain-string pattern
(first occurrence only) is modelled by `jsReplaceOnce`. -/

def startsWithCL : List Char → List Char → Bool
  | _, [] => true
  | [], _ :: _ => false
  | c :: cs, p :: ps => c == p && startsWithCL cs ps

def strStartsWith (s pat : String) : Bool := startsWithCL s.toList pat.toList

/-- First-occurrence string replacement, as JavaScript
`String.prototype.replace` with a string pattern. -/
def replaceOnceCL (pat rep : List Char) : List Char → List Char
  | [] => []
  | c :: cs =>
    if startsWithCL (c :: cs) pat then rep ++ (c :: cs).drop pat.length
    else c :: replaceOnceCL pat rep cs

def jsReplaceOnce (s pat rep : String) : String :=
  String.mk (replaceOnceCL pat.toList rep.toList s.toList)

/-- Kernel-evaluable `/`-join. -/
def joinWithSlash : List String → String
  | [] => ""
  | [s] => s
  | s :: rest => s ++ "/" ++ joinWithSlash rest

def pathResolve (parts : List String) : String := joinWithSlash parts

/-- Splitting on `/`, as JavaScript `split('/')` (kernel-evaluable). -/
def splitOnCL (sep : Char) : List Char → List (List Char)
  | [] => [[]]
  | c :: cs =>
    let r := splitOnCL sep cs
    if c = sep then [] :: r
    else
      match r with
      | [] => [[c]]
      | h :: t => (c :: h) :: t

def splitOnSlash (s : String) : List String :=
  (splitOnCL '/' s.toList).map String.mk

/-- `path.dirname`, for the slash-joined paths this model produces. -/
def dirname (p : String) : String :=
  joinWithSlash (splitOnSlash p).dropLast

/-- JavaScript `aliases[k] || default`: a missing or empty alias value falls
back to the default. -/
def aliasOrDefault (v : Option String) (d : String) : String :=
  match v with
  | none => d
  | some s => if s = "" then d else s

/-- The processor options consulted by the verified phases; `baseDir`,
`preserveSubdirectories` and `skipConflicts` of `RegistryProcessorOptions`. -/
structure ProcOptions where
  baseDir : String
  preserveSubdirectories : Bool
  skipConflicts : Bool
  deriving DecidableEq, Repr

/-- The fallback branch of `resolveTargetPath` (lines 363–371);
`split('/').pop() || filePath`. -/
def resolveFallback (options : ProcOptions) (filePath : String) : String :=
  if options.preserveSubdirectories then pathResolve [options.baseDir, filePath]
  else
    let fileName := match (splitOnSlash filePath).getLast? with
      | some s => if s = "" then filePath else s
      | none => filePath
    pathResolve [options.baseDir, fileName]

/-- `resolveTargetPath` (lines 333–372): with an alias table available, the
three hard-coded virtual prefixes are mapped through the `components` / `lib`
aliases (with `@/` rewritten to `src/`); everything else falls back. -/
def resolveTargetPath (aliases : Option (List (String × String)))
    (options : ProcOptions) (filePath : String) : String :=
  match aliases with
  | some al =>
    if strStartsWith filePath "registry/nextjs/components/" then
      let componentName := jsReplaceOnce filePath "registry/nextjs/components/" ""
      let componentsPath := aliasOrDefault (al.lookup "components") "@/components"
      let resolvedPath := jsReplaceOnce componentsPath "@/" "src/"
      pathResolve [options.baseDir, resolvedPath, componentName]
    else if strStartsWith filePath "registry/universal/lib/" then
      let libName := jsReplaceOnce filePath "registry/universal/lib/" ""
      let libPath := aliasOrDefault (al.lookup "lib") "@/lib"
      let resolvedPath2 := jsReplaceOnce libPath "@/" "src/"
      pathResolve [options.baseDir, resolvedPath2, libName]
    else if strStartsWith filePath "registry/nextjs/lib/" then
      let libName2 := jsReplaceOnce filePath "registry/nextjs/lib/" ""
      let libPath2 := aliasOrDefault (al.lookup "lib") "@/lib"
      let resolvedPath3 := jsReplaceOnce libPath2 "@/" "src/"
      pathResolve [options.baseDir, resolvedPath3, libName2]
    else resolveFallback options filePath
  | none => resolveFallback options filePath

/-! ### Conflict-aware writer — registry-processor.ts 107–331

The filesystem is a value: an association list of file contents (latest write
first) plus the set of known directories.  The run result additionally logs
every write, directory creation and per-file status line, so that frame
properties ("nothing was written") are directly observable. -/

structure FS where
  files : List (String × String)
  dirs : List String
  deriving DecidableEq, Repr

def FS.readFile (fs : FS) (p : String) : Option String := fs.files.lookup p

def FS.existsFile (fs : FS) (p : String) : Bool := (fs.files.lookup p).isSome

def FS.writeFile (fs : FS) (p c : String) : FS :=
  { fs with files := (p, c) :: fs.files }

def FS.existsDir (fs : FS) (d : String) : Bool := fs.dirs.contains d

def FS.mkdir (fs : FS) (d : String) : FS := { fs with dirs := d :: fs.dirs }

/-- `PendingFile` (lines 20–27); `fileExists` models the source's `exists`
field. -/
structure PendingFile where
  originalPath : String
  targetPath : String
  content : String
  processedContent : String
  fileExists : Bool
  identical : Bool
  deriving DecidableEq, Repr

/-- `String.prototype.trim`: strip leading and trailing whitespace
(kernel-evaluable model of `String.trim`). -/
def trimCL (s : List Char) : List Char :=
  ((s.dropWhile Char.isWhitespace).reverse.dropWhile Char.isWhitespace).reverse

def strTrim (s : String) : String := String.mk (trimCL s.toList)

/-- `compareFileContents` (lines 328–331): whitespace-trimmed exact
equality. -/
def compareFileContents (content1 content2 : String) : Bool :=
  strTrim content1 == strTrim content2

/-- JavaScript truthiness of `file.content`: `null`/absent and the empty
string are both falsy. -/
def contentFalsy : Option String → Bool
  | none => true
  | some s => s == ""

/-- The loop body of `collectPendingFiles` (lines 189–220) for one
non-skipped registry file. -/
def mkPending (aliases : Option (List (String × String)))
    (options : ProcOptions) (fs : FS) (f : RegistryFile) : PendingFile :=
  let c := f.content.getD ""
  let targetPath := resolveTargetPath aliases options f.path
  let processedContent := replaceRegistryPaths aliases c
  let ex := fs.existsFile targetPath
  let ident := if ex then
      compareFileContents ((fs.readFile targetPath).getD "") processedContent
    else false
  { originalPath := f.path, targetPath := targetPath, content := c,
    processedContent := processedContent, fileExists := ex, identical := ident }

/-- `collectPendingFiles` (lines 183–223): files with falsy content are
skipped (logged) and produce no pending file. -/
def collectPendingFiles (aliases : Option (List (String × String)))
    (options : ProcOptions) (fs : FS) : List RegistryFile → List PendingFile
  | [] => []
  | f :: rest =>
    if contentFalsy f.content then collectPendingFiles aliases options fs rest
    else mkPending aliases options fs f :: collectPendingFiles aliases options fs rest

structure FileConflict where
  file : PendingFile
  existingContent : String
  deriving DecidableEq, Repr

/-- `checkFileConflicts` (lines 225–251): a pending file is a conflict iff it
exists and is not identical; an unreadable existing file is warned about and
skipped. -/
def checkFileConflicts (fs : FS) : List PendingFile → List FileConflict
  | [] => []
  | pf :: rest =>
    if pf.fileExists && !pf.identical then
      match fs.readFile pf.targetPath with
      | some c => ⟨pf, c⟩ :: checkFileConflicts fs rest
      | none => checkFileConflicts fs rest
    else checkFileConflicts fs rest

/-- `path.relative(baseDir, target)` for targets under `baseDir`. -/
def relativePath (base p : String) : String :=
  if strStartsWith p (base ++ "/") then String.mk (p.toList.drop (base.length + 1))
  else p

/-- `String.prototype.toLowerCase` (kernel-evaluable model of
`String.toLower`). -/
def strToLower (s : String) : String := String.mk (s.toList.map Char.toLower)

/-- The acceptance test of `handleFileConflicts` (line 271): only a
case-insensitive `y` or `yes` proceeds. -/
def answerIsYes (answer : String) : Bool :=
  strToLower answer == "y" || strToLower answer == "yes"

/-- The relative paths listed by the batch overwrite prompt (lines 260–266). -/
def promptedPaths (baseDir : String) (conflicts : List FileConflict) :
    List String :=
  conflicts.map (fun c => relativePath baseDir c.file.targetPath)

inductive WriteStatus : Type where
  | created
  | updated
  | skippedIdentical
  deriving DecidableEq, Repr

structure ProcessedFile where
  originalPath : String
  processedPath : String
  content : String
  processedContent : String
  deriving DecidableEq, Repr

structure WriteState where
  fs : FS
  writes : List (String × String)
  mkdirs : List String
  statuses : List (String × WriteStatus)
  processedUrls : List String
  deriving DecidableEq, Repr

/-- `writePendingFile` (lines 274–326): track the processed URL, create the
target directory when missing, then write the rewritten content
unconditionally; the status line distinguishes created / updated /
skipped-identical. -/
def writePendingFile (baseDir : String) (pf : PendingFile) (st : WriteState) :
    WriteState × ProcessedFile :=
  let dir := dirname pf.targetPath
  let st1 := { st with processedUrls := st.processedUrls ++ [pf.originalPath] }
  let st2 := if st1.fs.existsDir dir then st1
    else { st1 with fs := st1.fs.mkdir dir, mkdirs := st1.mkdirs ++ [dir] }
  let st3 := { st2 with
    fs := st2.fs.writeFile pf.targetPath pf.processedContent,
    writes := st2.writes ++ [(pf.targetPath, pf.processedContent)] }
  let status := if pf.fileExists then
      (if pf.identical then WriteStatus.skippedIdentical else WriteStatus.updated)
    else WriteStatus.created
  let st4 := { st3 with
    statuses := st3.statuses ++ [(relativePath baseDir pf.targetPath, status)] }
  (st4, { originalPath := pf.originalPath, processedPath := pf.targetPath,
          content := pf.content, processedContent := pf.processedContent })

/-- The write phase over a batch of pending files, in order. -/
def writeAll (baseDir : String) (pending : List PendingFile)
    (st : WriteState) : WriteState × List ProcessedFile :=
  match pending with
  | [] => (st, [])
  | pf :: rest =>
    let r1 := writePendingFile baseDir pf st
    let r2 := writeAll baseDir rest r1.1
    (r2.1, r1.2 :: r2.2)

/-- The observable outcome of one `processRegistryItem` call: the final
write state, the returned value or thrown error, and whether/what the
overwrite prompt showed. -/
structure RunResult where
  state : WriteState
  result : Except String (List ProcessedFile)
  promptShown : Bool
  prompted : List String
  deriving Repr

def initialState (fs : FS) : WriteState := ⟨fs, [], [], [], []⟩

/-- The file-processing phase of `processRegistryItem` (lines 107–149); npm
dependency installation (an external shell invocation) is out of scope.
`answer` is the reply the interactive prompt would receive if it were shown.
Collect → (conflict check unless `skipConflicts`) → single batch prompt →
write all, or throw `User cancelled file overwrite` before any write. -/
def processRegistryItem (aliases : Option (List (String × String)))
    (options : ProcOptions) (fs : FS) (item : RegistryItem)
    (answer : String) : RunResult :=
  if item.files.isEmpty then
    { state := initialState fs, result := .ok [], promptShown := false,
      prompted := [] }
  else
    let pending := collectPendingFiles aliases options fs item.files
    if options.skipConflicts then
      let r := writeAll options.baseDir pending (initialState fs)
      { state := r.1, result := .ok r.2, promptShown := false, prompted := [] }
    else
      let conflicts := checkFileConflicts fs pending
      if conflicts.isEmpty then
        let r := writeAll options.baseDir pending (initialState fs)
        { state := r.1, result := .ok r.2, promptShown := false, prompted := [] }
      else
        if answerIsYes answer then
          let r := writeAll options.baseDir pending (initialState fs)
          { state := r.1, result := .ok r.2, promptShown := true,
            prompted := promptedPaths options.baseDir conflicts }
        else
          { state := initialState fs,
            result := .error "User cancelled file overwrite",
            promptShown := true,
            prompted := promptedPaths options.baseDir conflicts }

theorem mem_collectPendingFiles_of_mem
    (aliases : Option (List (String × String))) (options : ProcOptions)
    (fs : FS) {f : RegistryFile} :
    ∀ {files : List RegistryFile}, f ∈ files →
      contentFalsy f.content = false →
      mkPending aliases options fs f ∈ collectPendingFiles aliases options fs files := by
  intro files
  induction files with
  | nil => intro h; simp at h
  | cons g rest ih =>
    intro hf hcf
    rcases List.mem_cons.mp hf with h | h
    · subst h
      rw [collectPendingFiles, if_neg (by simp [hcf])]
      exact List.mem_cons_self _ _
    · rw [collectPendingFiles]
      by_cases hg : contentFalsy g.content = true
      · rw [if_pos hg]; exact ih h hcf
      · rw [if_neg hg]; exact List.mem_cons_of_mem _ (ih h hcf)

theorem collect_fileExists (aliases : Option (List (String × String)))
    (options : ProcOptions) (fs : FS) :
    ∀ files pf, pf ∈ collectPendingFiles aliases options fs files →
      pf.fileExists = fs.existsFile pf.targetPath := by
  intro files
  induction files with
  | nil => intro pf h; simp [collectPendingFiles] at h
  | cons g rest ih =>
    intro pf h
    rw [collectPendingFiles] at h
    by_cases hg : contentFalsy g.content = true
    · rw [if_pos hg] at h; exact ih pf h
    · rw [if_neg hg] at h
      rcases List.mem_cons.mp h with h1 | h1
      · subst h1; rfl
      · exact ih pf h1

theorem conflicts_entry_flags (fs : FS) :
    ∀ pending c, c ∈ checkFileConflicts fs pending →
      (c.file.fileExists && !c.file.identical) = true := by
  intro pending
  induction pending with
  | nil => intro c h; simp [checkFileConflicts] at h
  | cons g rest ih =>
    intro c h
    rw [checkFileConflicts] at h
    by_cases hg : (g.fileExists && !g.identical) = true
    · rw [if_pos hg] at h
      cases hr : fs.readFile g.targetPath with
      | some cc =>
        rw [hr] at h
        rcases List.mem_cons.mp h with h1 | h1
        · subst h1; exact hg
        · exact ih c h1
      | none => rw [hr] at h; exact ih c h
    · rw [if_neg hg] at h; exact ih c h

theorem conflicts_nonempty (fs : FS) :
    ∀ pending pf, pf ∈ pending → pf.fileExists = true → pf.identical = false →
      (fs.readFile pf.targetPath).isSome = true →
      checkFileConflicts fs pending ≠ [] := by
  intro pending
  induction pending with
  | nil => intro pf h; simp at h
  | cons g rest ih =>
    intro pf hmem hex hid hsome
    rw [checkFileConflicts]
    by_cases hg : (g.fileExists && !g.identical) = true
    · rw [if_pos hg]
      cases hr : fs.readFile g.targetPath with
      | some cc => simp
      | none =>
        rcases List.mem_cons.mp hmem with h1 | h1
        · subst h1
          rw [hr] at hsome
          simp at hsome
        · exact ih pf h1 hex hid hsome
    · rw [if_neg hg]
      rcases List.mem_cons.mp hmem with h1 | h1
      · subst h1
        rw [hex, hid] at hg
        simp at hg
      · exact ih pf h1 hex hid hsome

/-- C3: with conflict checking enabled, at least one conflicting pending file
in the batch, and any answer other than a case-insensitive `y`/`yes`, the
call throws `User cancelled file overwrite` and writes no file and creates no
directory — the filesystem is exactly the one it started with, so the
batch's non-conflicting and new files are not written either. -/
theorem c3_decline_aborts_with_no_writes
    (aliases : Option (List (String × String))) (options : ProcOptions)
    (fs : FS) (item : RegistryItem) (answer : String)
    (hskip : options.skipConflicts = false)
    (hconf : ∃ pf ∈ collectPendingFiles aliases options fs item.files,
      pf.fileExists = true ∧ pf.identical = false)
    (hans : answerIsYes answer = false) :
    (processRegistryItem aliases options fs item answer).result =
      .error "User cancelled file overwrite" ∧
    (processRegistryItem aliases options fs item answer).state.writes = [] ∧
    (processRegistryItem aliases options fs item answer).state.mkdirs = [] ∧
    (processRegistryItem aliases options fs item answer).state.fs = fs := by
  obtain ⟨pf, hpf, hex, hid⟩ := hconf
  have hne : item.files ≠ [] := by
    intro h
    rw [h] at hpf
    simp [collectPendingFiles] at hpf
  have hnotempty : item.files.isEmpty = false := by
    cases hf : item.files with
    | nil => exact absurd hf hne
    | cons a b => simp
  have hsomer : (fs.readFile pf.targetPath).isSome = true := by
    have h1 := (collect_fileExists aliases options fs item.files pf hpf).symm
    rw [hex] at h1
    exact h1
  have hcne : checkFileConflicts fs (collectPendingFiles aliases options fs item.files) ≠ [] :=
    conflicts_nonempty fs _ pf hpf hex hid hsomer
  rw [processRegistryItem, if_neg (by simp [hnotempty])]
  simp only [hskip, if_false, Bool.false_eq_true]
  rw [if_neg (by simpa [List.isEmpty_iff] using hcne)]
  rw [if_neg (by simp [hans])]
  exact ⟨rfl, rfl, rfl, rfl⟩

/-- Witness for C3: one conflicting file, answer `n`. -/
theorem c3_decline_aborts_with_no_writes_witness :
    ((processRegistryItem none
        { baseDir := "proj", preserveSubdirectories := true, skipConflicts := false }
        { files := [("proj/a.txt", "OLD")], dirs := ["proj"] }
        { name := "it", files := [{ path := "a.txt", content := some "x" }] }
        "n").result = .error "User cancelled file overwrite") ∧
    ((processRegistryItem none
        { baseDir := "proj", preserveSubdirectories := true, skipConflicts := false }
        { files := [("proj/a.txt", "OLD")], dirs := ["proj"] }
        { name := "it", files := [{ path := "a.txt", content := some "x" }] }
        "n").state.writes = []) ∧
    ((processRegistryItem none
        { baseDir := "proj", preserveSubdirectories := true, skipConflicts := false }
        { files := [("proj/a.txt", "OLD")], dirs := ["proj"] }
        { name := "it", files := [{ path := "a.txt", content := some "x" }] }
        "n").state.mkdirs = []) ∧
    ((processRegistryItem none
        { baseDir := "proj", preserveSubdirectories := true, skipConflicts := false }
        { files := [("proj/a.txt", "OLD")], dirs := ["proj"] }
        { name := "it", files := [{ path := "a.txt", content := some "x" }] }
        "n").state.fs = { files := [("proj/a.txt", "OLD")], dirs := ["proj"] }) :=
  c3_decline_aborts_with_no_writes none
    { baseDir := "proj", preserveSubdirectories := true, skipConflicts := false }
    { files := [("proj/a.txt", "OLD")], dirs := ["proj"] }
    { name := "it", files := [{ path := "a.txt", content := some "x" }] }
    "n" rfl
    ⟨mkPending none
      { baseDir := "proj", preserveSubdirectories := true, skipConflicts := false }
      { files := [("proj/a.txt", "OLD")], dirs := ["proj"] }
      { path := "a.txt", content := some "x" }, by decide, by decide, by decide⟩
    (by decide)

/-- C4: a pending file whose target already holds content trim-equal to the
rewritten incoming content is classified `identical` by the collect phase, is
not a conflict (`exists && !identical` is false), and no conflict entry — and
hence no line of the overwrite prompt, which lists exactly the conflicts —
ever carries it, whatever the leading/trailing whitespace differences. -/
theorem c4_trim_identical_not_conflict
    (aliases : Option (List (String × String))) (options : ProcOptions)
    (fs : FS) (files : List RegistryFile) (f : RegistryFile)
    (hf : f ∈ files) (hcf : contentFalsy f.content = false)
    (ex : String)
    (hex : fs.readFile (resolveTargetPath aliases options f.path) = some ex)
    (htrim : strTrim ex =
      strTrim (replaceRegistryPaths aliases (f.content.getD ""))) :
    (mkPending aliases options fs f).identical = true ∧
    mkPending aliases options fs f ∈ collectPendingFiles aliases options fs files ∧
    ((mkPending aliases options fs f).fileExists &&
      !(mkPending aliases options fs f).identical) = false ∧
    ∀ pending, ∀ c ∈ checkFileConflicts fs pending,
      c.file ≠ mkPending aliases options fs f := by
  have hexists : fs.existsFile (resolveTargetPath aliases options f.path) = true := by
    show (fs.readFile (resolveTargetPath aliases options f.path)).isSome = true
    rw [hex]
    rfl
  have hident : (mkPending aliases options fs f).identical = true := by
    simp only [mkPending]
    rw [if_pos hexists, hex]
    simp [compareFileContents, htrim]
  refine ⟨hident, mem_collectPendingFiles_of_mem aliases options fs hf hcf, ?_, ?_⟩
  · rw [hident]
    simp
  · intro pending c hc heq
    have hflag := conflicts_entry_flags fs pending c hc
    rw [heq, hident] at hflag
    simp at hflag

/-- Witness for C4: existing content `" x"`, incoming content `"x"`. -/
theorem c4_trim_identical_not_conflict_witness :
    ((mkPending none
        { baseDir := "proj", preserveSubdirectories := true, skipConflicts := false }
        { files := [("proj/a.txt", " x")], dirs := ["proj"] }
        { path := "a.txt", content := some "x" }).identical = true) ∧
    (mkPending none
        { baseDir := "proj", preserveSubdirectories := true, skipConflicts := false }
        { files := [("proj/a.txt", " x")], dirs := ["proj"] }
        { path := "a.txt", content := some "x" } ∈
      collectPendingFiles none
        { baseDir := "proj", preserveSubdirectories := true, skipConflicts := false }
        { files := [("proj/a.txt", " x")], dirs := ["proj"] }
        [{ path := "a.txt", content := some "x" }]) ∧
    (((mkPending none
        { baseDir := "proj", preserveSubdirectories := true, skipConflicts := false }
        { files := [("proj/a.txt", " x")], dirs := ["proj"] }
        { path := "a.txt", content := some "x" }).fileExists &&
      !(mkPending none
        { baseDir := "proj", preserveSubdirectories := true, skipConflicts := false }
        { files := [("proj/a.txt", " x")], dirs := ["proj"] }
        { path := "a.txt", content := some "x" }).identical) = false) ∧
    (∀ pending, ∀ c ∈ checkFileConflicts
        { files := [("proj/a.txt", " x")], dirs := ["proj"] } pending,
      c.file ≠ mkPending none
        { baseDir := "proj", preserveSubdirectories := true, skipConflicts := false }
        { files := [("proj/a.txt", " x")], dirs := ["proj"] }
        { path := "a.txt", content := some "x" }) :=
  c4_trim_identical_not_conflict none
    { baseDir := "proj", preserveSubdirectories := true, skipConflicts := false }
    { files := [("proj/a.txt", " x")], dirs := ["proj"] }
    [{ path := "a.txt", content := some "x" }]
    { path := "a.txt", content := some "x" }
    (by decide) (by decide) " x" (by decide) (by decide)

/-- Counterexample to C5: for a pending file with `exists = true` and
`identical = true` (existing content `" x"`, rewritten content `"x"`), the
write phase emits the skipped-identical status line but nevertheless performs
a write and replaces the on-disk content — the source's `writeFileSync` at
line 292 runs unconditionally. -/
theorem c5_counterexample :
    ((processRegistryItem none
        { baseDir := "proj", preserveSubdirectories := true, skipConflicts := false }
        { files := [("proj/a.txt", " x")], dirs := ["proj"] }
        { name := "it", files := [{ path := "a.txt", content := some "x" }] }
        "n").state.statuses = [("a.txt", WriteStatus.skippedIdentical)]) ∧
    ((processRegistryItem none
        { baseDir := "proj", preserveSubdirectories := true, skipConflicts := false }
        { files := [("proj/a.txt", " x")], dirs := ["proj"] }
        { name := "it", files := [{ path := "a.txt", content := some "x" }] }
        "n").state.writes = [("proj/a.txt", "x")]) ∧
    ((processRegistryItem none
        { baseDir := "proj", preserveSubdirectories := true, skipConflicts := false }
        { files := [("proj/a.txt", " x")], dirs := ["proj"] }
        { name := "it", files := [{ path := "a.txt", content := some "x" }] }
        "n").state.fs.readFile "proj/a.txt" = some "x") ∧
    (({ files := [("proj/a.txt", " x")], dirs := ["proj"] } : FS).readFile
        "proj/a.txt" = some " x") ∧
    (" x" : String) ≠ "x" := by
  decide

/-- C5 amended: for every pending file with `exists = true` and
`identical = true`, the write phase emits the distinct skipped-identical
status line but still writes the rewritten content unconditionally, so the
on-disk content afterwards is the rewritten content (equal to the previous
content only up to leading/trailing whitespace). -/
theorem c5_amended_skip_status_but_written (baseDir : String)
    (pf : PendingFile) (st : WriteState)
    (hex : pf.fileExists = true) (hid : pf.identical = true) :
    (writePendingFile baseDir pf st).1.writes =
      st.writes ++ [(pf.targetPath, pf.processedContent)] ∧
    (writePendingFile baseDir pf st).1.statuses =
      st.statuses ++
        [(relativePath baseDir pf.targetPath, WriteStatus.skippedIdentical)] ∧
    (writePendingFile baseDir pf st).1.fs.readFile pf.targetPath =
      some pf.processedContent := by
  unfold writePendingFile
  by_cases hdir : st.fs.existsDir (dirname pf.targetPath) = true <;>
    simp [hdir, hex, hid, FS.writeFile, FS.readFile, FS.mkdir, List.lookup]

/-- Witness for the amended C5. -/
theorem c5_amended_skip_status_but_written_witness :
    ((writePendingFile "proj"
        { originalPath := "a.txt", targetPath := "proj/a.txt", content := "x",
          processedContent := "x", fileExists := true, identical := true }
        (initialState { files := [("proj/a.txt", " x")], dirs := ["proj"] })).1.writes =
      (initialState { files := [("proj/a.txt", " x")], dirs := ["proj"] }).writes ++
        [("proj/a.txt", "x")]) ∧
    ((writePendingFile "proj"
        { originalPath := "a.txt", targetPath := "proj/a.txt", content := "x",
          processedContent := "x", fileExists := true, identical := true }
        (initialState { files := [("proj/a.txt", " x")], dirs := ["proj"] })).1.statuses =
      (initialState { files := [("proj/a.txt", " x")], dirs := ["proj"] }).statuses ++
        [(relativePath "proj" "proj/a.txt", WriteStatus.skippedIdentical)]) ∧
    ((writePendingFile "proj"
        { originalPath := "a.txt", targetPath := "proj/a.txt", content := "x",
          processedContent := "x", fileExists := true, identical := true }
        (initialState { files := [("proj/a.txt", " x")], dirs := ["proj"] })).1.fs.readFile
        "proj/a.txt" = some "x") :=
  c5_amended_skip_status_but_written "proj"
    { originalPath := "a.txt", targetPath := "proj/a.txt", content := "x",
      processedContent := "x", fileExists := true, identical := true }
    (initialState { files := [("proj/a.txt", " x")], dirs := ["proj"] })
    rfl rfl

theorem isEmpty_append_cons {α : Type} (a : List α) (x : α) (b : List α) :
    (a ++ x :: b).isEmpty = false := by
  cases a <;> simp [List.isEmpty]

theorem collect_falsy_middle (aliases : Option (List (String × String)))
    (options : ProcOptions) (fs : FS) (files1 files2 : List RegistryFile)
    (f : RegistryFile) (hf : contentFalsy f.content = true) :
    collectPendingFiles aliases options fs (files1 ++ f :: files2) =
      collectPendingFiles aliases options fs (files1 ++ files2) := by
  induction files1 with
  | nil =>
    rw [List.nil_append, List.nil_append, collectPendingFiles, if_pos hf]
  | cons g rest ih =>
    rw [List.cons_append, List.cons_append, collectPendingFiles,
      collectPendingFiles]
    by_cases hg : contentFalsy g.content = true
    · rw [if_pos hg, if_pos hg, ih]
    · rw [if_neg hg, if_neg hg, ih]

/-- C10: a registry file whose `content` is the empty string is treated
exactly like one whose content is absent: the collect phase produces no
pending file for it, and the whole `processRegistryItem` run is identical to
the run with that file's content `none` — so nothing is written to its target
path, it can never be classified a conflict, and it does not appear in the
returned processed files. -/
theorem c10_empty_content_skipped
    (aliases : Option (List (String × String))) (options : ProcOptions)
    (fs : FS) (answer : String) (item : RegistryItem)
    (files1 files2 : List RegistryFile) (p : String)
    (hfiles : item.files = files1 ++ { path := p, content := some "" } :: files2) :
    collectPendingFiles aliases options fs [{ path := p, content := some "" }] = [] ∧
    collectPendingFiles aliases options fs item.files =
      collectPendingFiles aliases options fs (files1 ++ files2) ∧
    processRegistryItem aliases options fs item answer =
      processRegistryItem aliases options fs
        { item with files := files1 ++ { path := p, content := none } :: files2 }
        answer := by
  refine ⟨rfl, ?_, ?_⟩
  · rw [hfiles]
    exact collect_falsy_middle aliases options fs files1 files2
      { path := p, content := some "" } rfl
  · have h1 : collectPendingFiles aliases options fs
        (files1 ++ { path := p, content := some "" } :: files2) =
        collectPendingFiles aliases options fs
          (files1 ++ { path := p, content := none } :: files2) := by
      rw [collect_falsy_middle aliases options fs files1 files2
          { path := p, content := some "" } rfl,
        collect_falsy_middle aliases options fs files1 files2
          { path := p, content := none } rfl]
    simp only [processRegistryItem, hfiles]
    rw [h1, isEmpty_append_cons, isEmpty_append_cons]

/-- Witness for C10 at a concrete item holding one empty-content file and one
real file. -/
theorem c10_empty_content_skipped_witness :
    (collectPendingFiles none
      { baseDir := "proj", preserveSubdirectories := true, skipConflicts := false }
      { files := [], dirs := ["proj"] }
      [{ path := "e.txt", content := some "" }] = []) ∧
    (collectPendingFiles none
      { baseDir := "proj", preserveSubdirectories := true, skipConflicts := false }
      { files := [], dirs := ["proj"] }
      ({ name := "it",
         files := [{ path := "e.txt", content := some "" },
                   { path := "a.txt", content := some "x" }] } : RegistryItem).files =
      collectPendingFiles none
        { baseDir := "proj", preserveSubdirectories := true, skipConflicts := false }
        { files := [], dirs := ["proj"] }
        ([] ++ [{ path := "a.txt", content := some "x" }])) ∧
    (processRegistryItem none
      { baseDir := "proj", preserveSubdirectories := true, skipConflicts := false }
      { files := [], dirs := ["proj"] }
      { name := "it",
        files := [{ path := "e.txt", content := some "" },
                  { path := "a.txt", content := some "x" }] } "n" =
    processRegistryItem none
      { baseDir := "proj", preserveSubdirectories := true, skipConflicts := false }
      { files := [], dirs := ["proj"] }
      { name := "it",
        files := [] ++ { path := "e.txt", content := none } ::
          [{ path := "a.txt", content := some "x" }] } "n") :=
  c10_empty_content_skipped none
    { baseDir := "proj", preserveSubdirectories := true, skipConflicts := false }
    { files := [], dirs := ["proj"] } "n"
    { name := "it",
      files := [{ path := "e.txt", content := some "" },
                { path := "a.txt", content := some "x" }] }
    [] [{ path := "a.txt", content := some "x" }] "e.txt" rfl

theorem startsWithCL_nil (s : List Char) : startsWithCL s [] = true := by
  cases s <;> rfl

theorem startsWithCL_append_self (p r : List Char) :
    startsWithCL (p ++ r) p = true := by
  induction p with
  | nil => simp [startsWithCL_nil]
  | cons c cs ih => simp [startsWithCL, ih]

theorem startsWithCL_take_of_append {l1 l2 p : List Char}
    (h : startsWithCL (l1 ++ l2) p = true) :
    startsWithCL l1 (p.take l1.length) = true := by
  induction l1 generalizing p with
  | nil => simp [startsWithCL, List.take]
  | cons c cs ih =>
    cases p with
    | nil => rfl
    | cons q ps =>
      simp only [List.cons_append, startsWithCL, Bool.and_eq_true] at h
      simp only [List.length_cons, List.take, startsWithCL, Bool.and_eq_true]
      exact ⟨h.1, ih h.2⟩

theorem toList_append (a b : String) : (a ++ b).toList = a.toList ++ b.toList := by
  simp [String.toList, String.data_append]

theorem replaceOnceCL_strip (p r : List Char) (hp : p ≠ []) :
    replaceOnceCL p [] (p ++ r) = r := by
  cases p with
  | nil => exact absurd rfl hp
  | cons c cs =>
    rw [List.cons_append, replaceOnceCL,
      if_pos (by rw [← List.cons_append]; exact startsWithCL_append_self _ r)]
    simp only [List.nil_append, List.length_cons, ← List.cons_append]
    exact List.drop_left (c :: cs) r

theorem jsReplaceOnce_strip (pre name : String) (hp : pre.toList ≠ []) :
    jsReplaceOnce (pre ++ name) pre "" = name := by
  unfold jsReplaceOnce
  rw [toList_append]
  show String.mk (replaceOnceCL pre.toList [] (pre.toList ++ name.toList)) = name
  rw [replaceOnceCL_strip pre.toList name.toList hp]
  rfl

/-- Counterexample to C7: the platform segment is not a wildcard in
`resolveTargetPath` — `registry/react/lib/x.ts` falls through to the
preserve-subdirectories fallback instead of resolving under the `lib` alias
as `registry/nextjs/lib/x.ts` does. -/
theorem c7_counterexample :
    (resolveTargetPath (some [("components", "@/components"), ("lib", "@/lib")])
      { baseDir := "proj", preserveSubdirectories := true, skipConflicts := false }
      "registry/react/lib/x.ts" = "proj/registry/react/lib/x.ts") ∧
    (resolveTargetPath (some [("components", "@/components"), ("lib", "@/lib")])
      { baseDir := "proj", preserveSubdirectories := true, skipConflicts := false }
      "registry/nextjs/lib/x.ts" = "proj/src/lib/x.ts") ∧
    ("proj/registry/react/lib/x.ts" : String) ≠ "proj/src/lib/x.ts" := by
  decide

/-- C7 amended: with an alias table available, `resolveTargetPath` maps only
the three hard-coded virtual prefixes — `registry/nextjs/components/` under
the `components` alias, and `registry/universal/lib/` and
`registry/nextjs/lib/` under the `lib` alias (the alias's `@/` prefix
rewritten to `src/`) — while any other platform segment, e.g.
`registry/react/lib/…`, falls through to the subdirectory-preserving
fallback. -/
theorem c7_amended_hardcoded_prefixes
    (al : List (String × String)) (options : ProcOptions) (name : String) :
    resolveTargetPath (some al) options ("registry/nextjs/components/" ++ name) =
      pathResolve [options.baseDir,
        jsReplaceOnce (aliasOrDefault (al.lookup "components") "@/components")
          "@/" "src/", name] ∧
    resolveTargetPath (some al) options ("registry/universal/lib/" ++ name) =
      pathResolve [options.baseDir,
        jsReplaceOnce (aliasOrDefault (al.lookup "lib") "@/lib") "@/" "src/",
        name] ∧
    resolveTargetPath (some al) options ("registry/nextjs/lib/" ++ name) =
      pathResolve [options.baseDir,
        jsReplaceOnce (aliasOrDefault (al.lookup "lib") "@/lib") "@/" "src/",
        name] ∧
    resolveTargetPath (some al) options ("registry/react/lib/" ++ name) =
      resolveFallback options ("registry/react/lib/" ++ name) := by
  have hsw : ∀ pre r : String, strStartsWith (pre ++ r) pre = true := by
    intro pre r
    unfold strStartsWith
    rw [toList_append]
    exact startsWithCL_append_self _ _
  have hnot : ∀ pre bad : String,
      startsWithCL bad.toList (pre.toList.take bad.toList.length) = false →
      strStartsWith (bad ++ name) pre = false := by
    intro pre bad hfalse
    unfold strStartsWith
    rw [toList_append]
    cases hsw2 : startsWithCL (bad.toList ++ name.toList) pre.toList with
    | false => rfl
    | true =>
      rw [startsWithCL_take_of_append hsw2] at hfalse
      exact Bool.noConfusion hfalse
  refine ⟨?_, ?_, ?_, ?_⟩
  · simp only [resolveTargetPath]
    rw [if_pos (hsw "registry/nextjs/components/" name)]
    rw [jsReplaceOnce_strip "registry/nextjs/components/" name (by decide)]
  · simp only [resolveTargetPath]
    rw [if_neg (by
      rw [hnot "registry/nextjs/components/" "registry/universal/lib/" (by decide)]
      simp)]
    rw [if_pos (hsw "registry/universal/lib/" name)]
    rw [jsReplaceOnce_strip "registry/universal/lib/" name (by decide)]
  · simp only [resolveTargetPath]
    rw [if_neg (by
      rw [hnot "registry/nextjs/components/" "registry/nextjs/lib/" (by decide)]
      simp)]
    rw [if_neg (by
      rw [hnot "registry/universal/lib/" "registry/nextjs/lib/" (by decide)]
      simp)]
    rw [if_pos (hsw "registry/nextjs/lib/" name)]
    rw [jsReplaceOnce_strip "registry/nextjs/lib/" name (by decide)]
  · simp only [resolveTargetPath]
    rw [if_neg (by
      rw [hnot "registry/nextjs/components/" "registry/react/lib/" (by decide)]
      simp)]
    rw [if_neg (by
      rw [hnot "registry/universal/lib/" "registry/react/lib/" (by decide)]
      simp)]
    rw [if_neg (by
      rw [hnot "registry/nextjs/lib/" "registry/react/lib/" (by decide)]
      simp)]

/-! ### Schema validator — registry-utils.ts 107–234

Registry items reach the validator as freshly parsed JSON, so the item is
modelled as a dynamic object: an association list of string keys to JSON
values. -/

inductive JVal : Type where
  | str (s : String)
  | num (n : Int)
  | boolean (b : Bool)
  | null
  | arr (xs : List JVal)
  | obj (fields : List (String × JVal))
  deriving Repr

def isStringJ : JVal → Bool
  | .str _ => true
  | _ => false

def isArrayJ : JVal → Bool
  | .arr _ => true
  | _ => false

/-- `isObject`: a non-null, non-array object. -/
def isObjectJ : JVal → Bool
  | .obj _ => true
  | _ => false

/-- The slice of a JSON-schema property the validator reads: `type`, `enum`,
and `items.type`. -/
structure SchemaProp where
  type : Option String := none
  enum : Option (List String) := none
  itemsType : Option String := none
  deriving Repr

structure RegistrySchema where
  required : Option (List String) := none
  properties : List (String × SchemaProp) := []
  deriving Repr

/-- A registry item as the validator sees it: a parsed JSON object. -/
abbrev JItem := List (String × JVal)

def extractPropertyNames (schema : RegistrySchema) : List String :=
  schema.properties.map Prod.fst

/-- `schema.required ? schema.required.map(…) : []`. -/
def extractRequired (schema : RegistrySchema) : List String :=
  schema.required.getD []

def itemKeys (item : JItem) : List String := item.map Prod.fst

def itemHas (item : JItem) (k : String) : Bool := (item.lookup k).isSome

def itemGet (item : JItem) (k : String) : JVal := (item.lookup k).getD .null

/-- The `value.forEach` item check for `items.type === 'string'` arrays. -/
def validateArrayItems (fieldName : String) : List JVal → Nat → List String
  | [], _ => []
  | x :: xs, i =>
    (if !(isStringJ x) then
      ["Array item at index " ++ toString i ++ " in field '" ++ fieldName ++
        "' must be a string"]
     else []) ++ validateArrayItems fieldName xs (i + 1)

/-- `fieldSchema.enum.includes(value)`: only a string value can be a member
of the (string) enum list. -/
def enumContains (es : List String) : JVal → Bool
  | .str s => es.contains s
  | _ => false

/-- `createFieldValidator` (registry-utils.ts 107–160): fields starting with
`$` or named `$schema`/`$id`/`$ref`/`metadata`/`meta` are exempt; unknown
fields produce an `Unknown field:` message; otherwise the declared type and
enum are enforced. -/
def createFieldValidator (schema : RegistrySchema) (fieldName : String)
    (value : JVal) : List String :=
  if strStartsWith fieldName "$" then []
  else if ["$schema", "$id", "$ref", "metadata", "meta"].contains fieldName then []
  else
    match schema.properties.lookup fieldName with
    | none => ["Unknown field: " ++ fieldName]
    | some fieldSchema =>
      let typeErrors :=
        match fieldSchema.type with
        | some "string" =>
          if !(isStringJ value) then
            ["Field '" ++ fieldName ++ "' must be a string"]
          else []
        | some "array" =>
          if !(isArrayJ value) then
            ["Field '" ++ fieldName ++ "' must be an array"]
          else if fieldSchema.itemsType = some "string" then
            match value with
            | .arr xs => validateArrayItems fieldName xs 0
            | _ => []
          else []
        | some "object" =>
          if !(isObjectJ value) then
            ["Field '" ++ fieldName ++ "' must be an object"]
          else []
        | _ => []
      let enumErrors :=
        match fieldSchema.enum with
        | some es =>
          if !(enumContains es value) then
            ["Field '" ++ fieldName ++ "' must be one of: " ++
              String.intercalate ", " es]
          else []
        | none => []
      typeErrors ++ enumErrors

/-- `validateRequiredFields` (lines 162–176). -/
def validateRequiredFields (schema : RegistrySchema) (item : JItem) :
    List String :=
  List.flatten ((extractRequired schema).map (fun field =>
    if !(itemHas item field) then ["Missing required field: " ++ field]
    else []))

/-- `validateFieldTypes` (lines 179–200): only schema-declared fields present
on the item are checked. -/
def validateFieldTypes (schema : RegistrySchema) (item : JItem) :
    List String :=
  List.flatten ((extractPropertyNames schema).map (fun field =>
    if itemHas item field then
      createFieldValidator schema field (itemGet item field)
    else []))

/-- `findUnknownFields` (lines 202–218): every key other than `name`/`type`
that is not declared in the schema produces an `Unknown field:` warning — no
metadata exemption here. -/
def findUnknownFields (schema : RegistrySchema) (item : JItem) :
    List String :=
  ((itemKeys item).filter (fun key =>
    if key == "name" || key == "type" then false
    else !((extractPropertyNames schema).contains key))).map
    (fun key => "Unknown field: " ++ key)

structure ValidationOutcome where
  isValid : Bool
  errors : List String
  warnings : List String
  deriving Repr, DecidableEq

/-- `validateRegistryItem` (lines 220–234). -/
def validateRegistryItem (schema : RegistrySchema) (item : JItem) :
    ValidationOutcome :=
  let requiredErrors := validateRequiredFields schema item
  let typeErrors := validateFieldTypes schema item
  let warnings := findUnknownFields schema item
  let errors := requiredErrors ++ typeErrors
  { isValid := errors.isEmpty, errors := errors, warnings := warnings }

/-- Counterexample to C8: an item carrying a `metadata` key not declared in
the schema is flagged — `validateRegistryItem` emits the warning
`Unknown field: metadata`, because `findUnknownFields` has no metadata
exemption (only `createFieldValidator` does). -/
theorem c8_counterexample :
    (validateRegistryItem
      { required := some [], properties := [("foo", { type := some "string" })] }
      [("name", .str "t"), ("type", .str "registry:component"),
        ("metadata", .obj [])]).warnings = ["Unknown field: metadata"] ∧
    (validateRegistryItem
      { required := some [], properties := [("foo", { type := some "string" })] }
      [("name", .str "t"), ("type", .str "registry:component"),
        ("metadata", .obj [])]).errors = [] := by
  constructor
  · rfl
  · rfl

/-- C8 amended: keys starting with `$` or named `$schema`/`$id`/`$ref`/
`metadata`/`meta` are exempt only from field validation —
`createFieldValidator` returns no message for them, so they contribute no
*error* — but the unknown-field detection does not exempt them: such a key
present on the item, not declared in the schema and different from
`name`/`type`, still yields the warning `Unknown field: <key>`. -/
theorem c8_amended_metadata_warned_not_errored (schema : RegistrySchema)
    (item : JItem) (key : String) (v : JVal)
    (hkey : strStartsWith key "$" = true ∨
      key ∈ ["$schema", "$id", "$ref", "metadata", "meta"]) :
    createFieldValidator schema key v = [] ∧
    (key ∈ itemKeys item → (extractPropertyNames schema).contains key = false →
      key ≠ "name" → key ≠ "type" →
      ("Unknown field: " ++ key) ∈ (validateRegistryItem schema item).warnings) := by
  constructor
  · unfold createFieldValidator
    by_cases h1 : strStartsWith key "$" = true
    · rw [if_pos h1]
    · have h2 : key ∈ ["$schema", "$id", "$ref", "metadata", "meta"] := by
        rcases hkey with h | h
        · exact absurd h h1
        · exact h
      rw [if_neg h1, if_pos (by simpa using h2)]
  · intro hmem hcontains hname htype
    show ("Unknown field: " ++ key) ∈ findUnknownFields schema item
    unfold findUnknownFields
    refine List.mem_map.mpr ⟨key, ?_, rfl⟩
    refine List.mem_filter.mpr ⟨hmem, ?_⟩
    have h1 : (key == "name" || key == "type") = false := by
      simp [hname, htype]
    rw [h1]
    simp only [Bool.false_eq_true, if_false, Bool.not_eq_true']
    exact hcontains

/-- Witness for the amended C8 at the counterexample's schema and item. -/
theorem c8_amended_metadata_warned_not_errored_witness :
    (createFieldValidator
      { required := some [], properties := [("foo", { type := some "string" })] }
      "metadata" (.obj []) = []) ∧
    (("Unknown field: " ++ "metadata") ∈ (validateRegistryItem
      { required := some [], properties := [("foo", { type := some "string" })] }
      [("name", .str "t"), ("type", .str "registry:component"),
        ("metadata", .obj [])]).warnings) := by
  have h := c8_amended_metadata_warned_not_errored
    { required := some [], properties := [("foo", { type := some "string" })] }
    [("name", .str "t"), ("type", .str "registry:component"),
      ("metadata", .obj [])]
    "metadata" (.obj []) (Or.inr (by decide))
  exact ⟨h.1, h.2 (by decide) (by decide) (by decide) (by decide)⟩

/-! ### Dependency processing of the add command (`processDependencies`)

The loop's observable behaviour: which dependencies were fetch-attempted,
which got a `processRegistryItem` call, and what was logged.  The whole loop
body sits in a `try`/`catch`, so the function always returns normally; it is
modelled as a total function into this record. -/

structure ValidationResult where
  isValid : Bool
  errors : List String
  deriving Repr, DecidableEq

structure DepRun where
  fetched : List String
  processCalls : List String
  logs : List String
  deriving Repr, DecidableEq

/-- The body of `processDependencies`' loop (part_011, lines 355–374) for one
dependency: fetch and parse (`fetchFn`, `.error` = rejected fetch or JSON
failure), validate, then process (`processItem`, `.error` = thrown); a fetch
failure or a thrown processing error is caught and logged, an invalid item is
logged with its errors — and in every case the loop continues. -/
def depLoopBody (fetchFn : String → Except String RegistryItem)
    (validate : RegistryItem → ValidationResult)
    (processItem : RegistryItem → Except String Unit)
    (depUrl : String) : DepRun :=
  match fetchFn depUrl with
  | .error _ =>
    { fetched := [depUrl], processCalls := [],
      logs := ["Failed to fetch dependency " ++ depUrl ++ ":"] }
  | .ok depItem =>
    if (validate depItem).isValid then
      match processItem depItem with
      | .ok _ => { fetched := [depUrl], processCalls := [depUrl], logs := [] }
      | .error _ =>
        { fetched := [depUrl], processCalls := [depUrl],
          logs := ["Failed to fetch dependency " ++ depUrl ++ ":"] }
    else
      { fetched := [depUrl], processCalls := [],
        logs := ("Invalid dependency " ++ depUrl ++ ":") ::
          (validate depItem).errors.map (fun e => "  - " ++ e) }

/-- `processDependencies` (part_011, lines 346–375). -/
def processDependencies (fetchFn : String → Except String RegistryItem)
    (validate : RegistryItem → ValidationResult)
    (processItem : RegistryItem → Except String Unit) :
    List String → DepRun
  | [] => { fetched := [], processCalls := [], logs := [] }
  | depUrl :: rest =>
    let step := depLoopBody fetchFn validate processItem depUrl
    let restRun := processDependencies fetchFn validate processItem rest
    { fetched := step.fetched ++ restRun.fetched,
      processCalls := step.processCalls ++ restRun.processCalls,
      logs := step.logs ++ restRun.logs }

/-- The root phase of `addCommand` (part_011, lines 204–261): the root item
is fetched before dependency processing, and a root fetch failure propagates
— it is fatal to the whole operation. -/
def addCommandFetchPhase (fetchFn : String → Except String RegistryItem)
    (validate : RegistryItem → ValidationResult)
    (processItem : RegistryItem → Except String Unit)
    (component : String) : Except String DepRun :=
  match fetchFn component with
  | .error e => .error e
  | .ok item =>
    .ok (processDependencies fetchFn validate processItem
      item.registryDependencies)

theorem depLoopBody_fetched (fetchFn : String → Except String RegistryItem)
    (validate : RegistryItem → ValidationResult)
    (processItem : RegistryItem → Except String Unit) (d : String) :
    (depLoopBody fetchFn validate processItem d).fetched = [d] := by
  cases h : fetchFn d with
  | error e => simp [depLoopBody, h]
  | ok it =>
    by_cases hv : (validate it).isValid = true
    · cases hp : processItem it <;> simp [depLoopBody, h, hv, hp]
    · simp [depLoopBody, h, hv]

theorem depLoopBody_bad (fetchFn : String → Except String RegistryItem)
    (validate : RegistryItem → ValidationResult)
    (processItem : RegistryItem → Except String Unit) (d : String)
    (hbad : (∃ e, fetchFn d = .error e) ∨
      (∃ it, fetchFn d = .ok it ∧ (validate it).isValid = false)) :
    (depLoopBody fetchFn validate processItem d).processCalls = [] ∧
    (depLoopBody fetchFn validate processItem d).logs ≠ [] := by
  rcases hbad with ⟨e, he⟩ | ⟨it, hit, hv⟩
  · simp [depLoopBody, he]
  · simp [depLoopBody, hit, hv]

theorem processDependencies_append
    (fetchFn : String → Except String RegistryItem)
    (validate : RegistryItem → ValidationResult)
    (processItem : RegistryItem → Except String Unit) :
    ∀ l1 l2,
      processDependencies fetchFn validate processItem (l1 ++ l2) =
        { fetched := (processDependencies fetchFn validate processItem l1).fetched ++
            (processDependencies fetchFn validate processItem l2).fetched,
          processCalls :=
            (processDependencies fetchFn validate processItem l1).processCalls ++
              (processDependencies fetchFn validate processItem l2).processCalls,
          logs := (processDependencies fetchFn validate processItem l1).logs ++
            (processDependencies fetchFn validate processItem l2).logs } := by
  intro l1
  induction l1 with
  | nil => intro l2; simp [processDependencies]
  | cons d ds ih =>
    intro l2
    rw [List.cons_append, processDependencies, processDependencies, ih l2]
    simp

/-- C9: every dependency in the list is fetch-attempted; a dependency whose
fetch fails or whose validation fails contributes only its log lines — no
`processRegistryItem` call — while all dependencies before and after it are
fetched and processed exactly as they would be on their own, and the loop (a
total function whose body catches every failure) returns normally.  In
contrast, a root-item fetch failure propagates out of the add command's
fetch phase as an error. -/
theorem c9_dependency_failures_isolated
    (fetchFn : String → Except String RegistryItem)
    (validate : RegistryItem → ValidationResult)
    (processItem : RegistryItem → Except String Unit) :
    (∀ deps,
      (processDependencies fetchFn validate processItem deps).fetched = deps) ∧
    (∀ pre (bad : String) post,
      ((∃ e, fetchFn bad = .error e) ∨
        (∃ it, fetchFn bad = .ok it ∧ (validate it).isValid = false)) →
      (processDependencies fetchFn validate processItem
          (pre ++ bad :: post)).processCalls =
        (processDependencies fetchFn validate processItem pre).processCalls ++
          (processDependencies fetchFn validate processItem post).processCalls ∧
      (processDependencies fetchFn validate processItem
          (pre ++ bad :: post)).logs =
        (processDependencies fetchFn validate processItem pre).logs ++
          (depLoopBody fetchFn validate processItem bad).logs ++
          (processDependencies fetchFn validate processItem post).logs ∧
      (depLoopBody fetchFn validate processItem bad).logs ≠ []) ∧
    (∀ component e, fetchFn component = .error e →
      addCommandFetchPhase fetchFn validate processItem component = .error e) := by
  refine ⟨?_, ?_, ?_⟩
  · intro deps
    induction deps with
    | nil => rfl
    | cons d ds ih =>
      rw [processDependencies]
      show (depLoopBody fetchFn validate processItem d).fetched ++
        (processDependencies fetchFn validate processItem ds).fetched = d :: ds
      rw [depLoopBody_fetched, ih]
      rfl
  · intro pre bad post hbad
    obtain ⟨hpc, hlogs⟩ := depLoopBody_bad fetchFn validate processItem bad hbad
    rw [processDependencies_append fetchFn validate processItem pre (bad :: post)]
    rw [processDependencies]
    refine ⟨?_, ?_, hlogs⟩
    · show (processDependencies fetchFn validate processItem pre).processCalls ++
        ((depLoopBody fetchFn validate processItem bad).processCalls ++
          (processDependencies fetchFn validate processItem post).processCalls) = _
      rw [hpc]
      rfl
    · show (processDependencies fetchFn validate processItem pre).logs ++
        ((depLoopBody fetchFn validate processItem bad).logs ++
          (processDependencies fetchFn validate processItem post).logs) = _
      rw [List.append_assoc]
  · intro component e h
    unfold addCommandFetchPhase
    rw [h]

def c9Fetch : String → Except String RegistryItem := fun d =>
  if d = "bad" then .error "404" else .ok { name := d }

def c9Validate : RegistryItem → ValidationResult := fun _ =>
  { isValid := true, errors := [] }

def c9Process : RegistryItem → Except String Unit := fun _ => .ok ()

/-- Witness for C9 at a concrete fetcher whose only failure is `bad`. -/
theorem c9_dependency_failures_isolated_witness :
    ((processDependencies c9Fetch c9Validate c9Process ["a", "bad", "b"]).fetched =
      ["a", "bad", "b"]) ∧
    ((processDependencies c9Fetch c9Validate c9Process
        (["a"] ++ "bad" :: ["b"])).processCalls =
      (processDependencies c9Fetch c9Validate c9Process ["a"]).processCalls ++
        (processDependencies c9Fetch c9Validate c9Process ["b"]).processCalls) ∧
    ((depLoopBody c9Fetch c9Validate c9Process "bad").logs ≠ []) ∧
    (addCommandFetchPhase c9Fetch c9Validate c9Process "bad" = .error "404") := by
  have h := c9_dependency_failures_isolated c9Fetch c9Validate c9Process
  have hbad : (∃ e, c9Fetch "bad" = .error e) ∨
      (∃ it, c9Fetch "bad" = .ok it ∧ (c9Validate it).isValid = false) :=
    Or.inl ⟨"404", by simp [c9Fetch]⟩
  exact ⟨h.1 ["a", "bad", "b"], (h.2.1 ["a"] "bad" ["b"] hbad).1,
    (h.2.1 ["a"] "bad" ["b"] hbad).2.2, h.2.2 "bad" "404" (by simp [c9Fetch])⟩

/-! ### Correctness lemmas for the content rewriter's scanners -/

theorem stripPrefixCL_sound :
    ∀ {pat s r : List Char}, stripPrefixCL pat s = some r → s = pat ++ r := by
  intro pat
  induction pat with
  | nil =>
    intro s r h
    rw [stripPrefixCL] at h
    injection h with h1
  | cons p ps ih =>
    intro s r h
    cases s with
    | nil => rw [stripPrefixCL] at h; exact absurd h (by simp)
    | cons c cs =>
      rw [stripPrefixCL] at h
      by_cases hpc : p = c
      · rw [if_pos hpc] at h
        rw [List.cons_append, hpc, ih h]
      · rw [if_neg hpc] at h
        exact absurd h (by simp)

theorem stripPrefixCL_self_append (pat r : List Char) :
    stripPrefixCL pat (pat ++ r) = some r := by
  induction pat with
  | nil => rfl
  | cons p ps ih => rw [List.cons_append, stripPrefixCL, if_pos rfl, ih]

theorem stripPrefixCL_isSome (pat : List Char) :
    ∀ s, (stripPrefixCL pat s).isSome = startsWithCL s pat := by
  induction pat with
  | nil => intro s; rw [stripPrefixCL, startsWithCL_nil]; rfl
  | cons p ps ih =>
    intro s
    cases s with
    | nil => rfl
    | cons c cs =>
      rw [stripPrefixCL, startsWithCL]
      by_cases hpc : p = c
      · rw [if_pos hpc, ih cs, hpc]
        simp
      · rw [if_neg hpc]
        have : (c == p) = false := by
          simp
          exact fun h => hpc h.symm
        rw [this]
        rfl

theorem stripPrefixCL_none_of_not_startsWith {pat s : List Char}
    (h : startsWithCL s pat = false) : stripPrefixCL pat s = none := by
  have h1 := stripPrefixCL_isSome pat s
  rw [h] at h1
  exact Option.not_isSome_iff_eq_none.mp (by rw [h1]; exact Bool.noConfusion)

theorem startsWith_mem_of_short :
    ∀ (a : List Char) (c : Char) (d pat : List Char),
      startsWithCL (a ++ c :: d) pat = true → a.length < pat.length → c ∈ pat := by
  intro a
  induction a with
  | nil =>
    intro c d pat h hlen
    cases pat with
    | nil => simp at hlen
    | cons q qs =>
      rw [List.nil_append, startsWithCL, Bool.and_eq_true] at h
      have : c = q := by simpa using h.1
      rw [this]
      exact List.mem_cons_self _ _
  | cons x xs ih =>
    intro c d pat h hlen
    cases pat with
    | nil => simp at hlen
    | cons q qs =>
      rw [List.cons_append, startsWithCL, Bool.and_eq_true] at h
      exact List.mem_cons_of_mem _ (ih c d qs h.2 (by simpa using hlen))

theorem startsWith_false_append_single (p : List Char) (q : Char) (pat : List Char)
    (hp : startsWithCL p pat = false) (hq : q ∉ pat) :
    startsWithCL (p ++ [q]) pat = false := by
  cases hsw : startsWithCL (p ++ [q]) pat with
  | false => rfl
  | true =>
    exfalso
    by_cases hlen : pat.length ≤ p.length
    · have h1 := startsWithCL_take_of_append hsw
      rw [List.take_of_length_le hlen] at h1
      rw [h1] at hp
      exact Bool.noConfusion hp
    · exact hq (startsWith_mem_of_short p q [] pat hsw (by omega))

theorem scanReplace_nil (tm : List Char → Option (List Char × List Char)) :
    scanReplace tm [] = [] := rfl

theorem scanReplace_cons_none {tm : List Char → Option (List Char × List Char)}
    {c : Char} {cs : List Char} (h : tm (c :: cs) = none) :
    scanReplace tm (c :: cs) = c :: scanReplace tm cs := by
  rw [scanReplace, List.length_cons, scanReplaceF, h]
  rfl

theorem drop_sub_of_suffix {r cs : List Char} (h : r <:+ cs) :
    cs.drop (cs.length - r.length) = r := by
  obtain ⟨t, rfl⟩ := h
  rw [List.length_append]
  have : t.length + r.length - r.length = t.length := by omega
  rw [this, List.drop_left]

theorem scanReplace_cons_some {tm : List Char → Option (List Char × List Char)}
    {c : Char} {cs e r : List Char} (h : tm (c :: cs) = some (e, r))
    (hr : r <:+ cs) :
    scanReplace tm (c :: cs) = e ++ scanReplace tm r := by
  rw [scanReplace, List.length_cons, scanReplaceF, h]
  show e ++ scanReplaceF tm cs.length (List.drop (cs.length - r.length) cs)
    = e ++ scanReplace tm r
  rw [drop_sub_of_suffix hr, scanReplace]
  have hle : r.length ≤ cs.length := hr.length_le
  rw [scanReplaceF_fuel_irrel tm cs.length r.length r hle le_rfl]

theorem scanReplace_id_of_allFail {tm : List Char → Option (List Char × List Char)} :
    ∀ s, (∀ t, t <:+ s → tm t = none) → scanReplace tm s = s := by
  intro s
  induction s with
  | nil => intro _; rfl
  | cons c cs ih =>
    intro h
    rw [scanReplace_cons_none (h (c :: cs) (List.suffix_refl _))]
    rw [ih (fun t ht => h t (ht.trans (List.suffix_cons c cs)))]

theorem forall_suffix_cons {P : List Char → Prop} {c : Char} {s : List Char}
    (h1 : P (c :: s)) (h2 : ∀ t, t <:+ s → P t) :
    ∀ t, t <:+ c :: s → P t := by
  intro t ht
  rcases List.suffix_cons_iff.mp ht with h | h
  · rw [h]; exact h1
  · exact h2 t h

theorem suffix_append_cases (a : List Char) (b : List Char) :
    ∀ t, t <:+ a ++ b →
      t <:+ b ∨ ∃ x, x <:+ a ∧ x ≠ [] ∧ t = x ++ b := by
  induction a with
  | nil => intro t ht; exact Or.inl (by simpa using ht)
  | cons c cs ih =>
    intro t ht
    rw [List.cons_append] at ht
    rcases List.suffix_cons_iff.mp ht with h | h
    · right
      exact ⟨c :: cs, List.suffix_refl _, by simp, by rw [h]; rfl⟩
    · rcases ih t h with h1 | ⟨x, hx, hne, rfl⟩
      · exact Or.inl h1
      · exact Or.inr ⟨x, hx.trans (List.suffix_cons c cs), hne, rfl⟩

theorem matchRole_pre_mem {pre dir s r : List Char}
    (h : matchRole pre dir s = some r) : ∀ ch ∈ pre, ch ∈ s := by
  intro ch hch
  unfold matchRole at h
  cases hs : stripPrefixCL pre s with
  | none => rw [hs] at h; exact absurd h (by simp)
  | some s1 =>
    have := stripPrefixCL_sound hs
    rw [this]
    exact List.mem_append_left _ hch

theorem matchNorm_pre_mem {pre : List Char} {wp : Bool} {s : List Char}
    {pr : List Char × List Char}
    (h : matchNorm pre wp s = some pr) : ∀ ch ∈ pre, ch ∈ s := by
  intro ch hch
  unfold matchNorm at h
  cases hs : stripPrefixCL pre s with
  | none => rw [hs] at h; exact absurd h (by simp)
  | some s1 =>
    have := stripPrefixCL_sound hs
    rw [this]
    exact List.mem_append_left _ hch

theorem matchRole_none_of_not_mem {pre dir s : List Char} {w : Char}
    (hw : w ∈ pre) (hs : w ∉ s) : matchRole pre dir s = none := by
  cases h : matchRole pre dir s with
  | none => rfl
  | some r => exact absurd (matchRole_pre_mem h w hw) hs

theorem matchNorm_none_of_not_mem {pre : List Char} {wp : Bool} {s : List Char}
    {w : Char} (hw : w ∈ pre) (hs : w ∉ s) : matchNorm pre wp s = none := by
  cases h : matchNorm pre wp s with
  | none => rfl
  | some r => exact absurd (matchNorm_pre_mem h w hw) hs

theorem rolePass_id {pre dir : List Char} (targetAlias : List Char)
    {s : List Char} (h : ∀ t, t <:+ s → matchRole pre dir t = none) :
    rolePass pre dir targetAlias s = s := by
  unfold rolePass
  exact scanReplace_id_of_allFail s (fun t ht => by rw [h t ht]; rfl)

theorem normPass_id {pre : List Char} {wp : Bool} {s : List Char}
    (h : ∀ t, t <:+ s → matchNorm pre wp t = none) :
    normPass pre wp s = s := by
  unfold normPass
  exact scanReplace_id_of_allFail s (fun t ht => by rw [h t ht]; rfl)

theorem roleFail_of_not_mem {pre dir : List Char} {w : Char} {s : List Char}
    (hw : w ∈ pre) (hs : w ∉ s) :
    ∀ t, t <:+ s → matchRole pre dir t = none :=
  fun t ht => matchRole_none_of_not_mem hw (fun hm => hs (ht.subset hm))

theorem normFail_of_not_mem {pre : List Char} {wp : Bool} {w : Char}
    {s : List Char} (hw : w ∈ pre) (hs : w ∉ s) :
    ∀ t, t <:+ s → matchNorm pre wp t = none :=
  fun t ht => matchNorm_none_of_not_mem hw (fun hm => hs (ht.subset hm))

/-- A definite character mismatch between the head of a scanned text and a
pattern, independent of what follows the text. -/
def mismatch : List Char → List Char → Bool
  | _, [] => false
  | [], _ :: _ => false
  | c :: cs, d :: ds => if c = d then mismatch cs ds else true

theorem sw_false_of_mismatch :
    ∀ {y pre : List Char}, mismatch y pre = true →
      ∀ z, startsWithCL (y ++ z) pre = false := by
  intro y
  induction y with
  | nil => intro pre h z; cases pre with
    | nil => exact absurd h (by simp [mismatch])
    | cons d ds => exact absurd h (by simp [mismatch])
  | cons c cs ih =>
    intro pre h z
    cases pre with
    | nil => exact absurd h (by simp [mismatch])
    | cons d ds =>
      rw [mismatch] at h
      rw [List.cons_append, startsWithCL]
      by_cases hcd : c = d
      · rw [if_pos hcd] at h
        rw [ih h z]
        simp
      · rw [if_neg hcd] at h
        have : (c == d) = false := by simp [hcd]
        rw [this]
        rfl

theorem sw_length : ∀ {s pat : List Char}, startsWithCL s pat = true →
    pat.length ≤ s.length := by
  intro s
  induction s with
  | nil => intro pat h; cases pat with
    | nil => simp
    | cons d ds => exact absurd h (by rw [startsWithCL]; simp)
  | cons c cs ih =>
    intro pat h
    cases pat with
    | nil => simp
    | cons d ds =>
      rw [startsWithCL, Bool.and_eq_true] at h
      simpa using ih h.2

theorem sw_of_append_long {x z pat : List Char}
    (h : startsWithCL (x ++ z) pat = true) (hlen : pat.length ≤ x.length) :
    startsWithCL x pat = true := by
  have h1 := startsWithCL_take_of_append h
  rwa [List.take_of_length_le hlen] at h1

theorem sw_subset : ∀ {s pat : List Char}, startsWithCL s pat = true →
    ∀ c ∈ pat, c ∈ s := by
  intro s
  induction s with
  | nil => intro pat h c hc; cases pat with
    | nil => simp at hc
    | cons d ds => exact absurd h (by rw [startsWithCL]; simp)
  | cons a as ih =>
    intro pat h c hc
    cases pat with
    | nil => simp at hc
    | cons d ds =>
      rw [startsWithCL, Bool.and_eq_true] at h
      rcases List.mem_cons.mp hc with rfl | hc2
      · have : a = c := by simpa using h.1
        rw [this]; exact List.mem_cons_self _ _
      · exact List.mem_cons_of_mem _ (ih h.2 c hc2)

theorem startsWith_false_append_cons {p : List Char} {q : Char} {e pat : List Char}
    (hp : startsWithCL p pat = false) (hq : q ∉ pat) :
    startsWithCL (p ++ q :: e) pat = false := by
  cases hsw : startsWithCL (p ++ q :: e) pat with
  | false => rfl
  | true =>
    exfalso
    by_cases hlen : pat.length ≤ p.length
    · rw [sw_of_append_long hsw hlen] at hp
      exact Bool.noConfusion hp
    · exact hq (startsWith_mem_of_short p q e pat hsw (by omega))

theorem quote_decomp1 :
    ∀ (m : List Char) {e : List Char} {q2 : Char} (a : List Char) {q : Char}
      {b : List Char},
      (∀ c ∈ m, isQuoteChar c = false) → (∀ c ∈ e, isQuoteChar c = false) →
      m ++ q2 :: e = a ++ q :: b → isQuoteChar q = true → b = e := by
  intro m
  induction m with
  | nil =>
    intro e q2 a q b _ he heq hq
    cases a with
    | nil =>
      injection heq with h1 h2
      exact h2.symm
    | cons x a2 =>
      injection heq with h1 h2
      exfalso
      have : q ∈ e := by rw [h2]; exact List.mem_append_right _ (List.mem_cons_self _ _)
      rw [he q this] at hq
      exact Bool.noConfusion hq
  | cons c m2 ih =>
    intro e q2 a q b hm he heq hq
    cases a with
    | nil =>
      injection heq with h1 h2
      exfalso
      rw [← h1] at hq
      rw [hm c (List.mem_cons_self _ _)] at hq
      exact Bool.noConfusion hq
    | cons x a2 =>
      injection heq with h1 h2
      exact ih a2 (fun d hd => hm d (List.mem_cons_of_mem _ hd)) he h2 hq

theorem quote_decomp :
    ∀ (f : List Char) {m e : List Char} {q1 q2 : Char} (a : List Char) {q : Char}
      {b : List Char},
      (∀ c ∈ f, isQuoteChar c = false) → (∀ c ∈ m, isQuoteChar c = false) →
      (∀ c ∈ e, isQuoteChar c = false) →
      f ++ q1 :: (m ++ q2 :: e) = a ++ q :: b → isQuoteChar q = true →
      b = m ++ q2 :: e ∨ b = e := by
  intro f
  induction f with
  | nil =>
    intro m e q1 q2 a q b _ hm he heq hq
    cases a with
    | nil =>
      injection heq with h1 h2
      exact Or.inl h2.symm
    | cons x a2 =>
      injection heq with h1 h2
      exact Or.inr (quote_decomp1 m a2 hm he h2 hq)
  | cons c f2 ih =>
    intro m e q1 q2 a q b hf hm he heq hq
    cases a with
    | nil =>
      injection heq with h1 h2
      exfalso
      rw [← h1] at hq
      rw [hf c (List.mem_cons_self _ _)] at hq
      exact Bool.noConfusion hq
    | cons x a2 =>
      injection heq with h1 h2
      exact ih a2 (fun d hd => hf d (List.mem_cons_of_mem _ hd)) hm he h2 hq

theorem takeWhile_no_quote (p : List Char) (q : Char) (e : List Char)
    (hp : ∀ c ∈ p, isQuoteChar c = false) (hq : isQuoteChar q = true) :
    (p ++ q :: e).takeWhile (fun c => !(isQuoteChar c)) = p := by
  induction p with
  | nil => simp [List.takeWhile_cons, hq]
  | cons c cs ih =>
    have hc := hp c (List.mem_cons_self c cs)
    rw [List.cons_append, List.takeWhile_cons]
    simp only [hc, Bool.not_false, if_true]
    rw [ih (fun d hd => hp d (List.mem_cons_of_mem c hd))]

theorem dropWhile_no_quote (p : List Char) (q : Char) (e : List Char)
    (hp : ∀ c ∈ p, isQuoteChar c = false) (hq : isQuoteChar q = true) :
    (p ++ q :: e).dropWhile (fun c => !(isQuoteChar c)) = q :: e := by
  induction p with
  | nil => simp [List.dropWhile_cons, hq]
  | cons c cs ih =>
    have hc := hp c (List.mem_cons_self c cs)
    rw [List.cons_append, List.dropWhile_cons]
    simp only [hc, Bool.not_false, if_true]
    exact ih (fun d hd => hp d (List.mem_cons_of_mem c hd))

theorem matchNorm_eval_false (pre : List Char) (p : List Char) (q1 q2 : Char)
    (e : List Char) (h1 : isQuoteChar q1 = true) (h2 : isQuoteChar q2 = true)
    (hp : ∀ c ∈ p, isQuoteChar c = false) (hpne : p ≠ []) :
    matchNorm pre false (pre ++ q1 :: '@' :: '/' :: (p ++ q2 :: e)) =
      some (p, e) := by
  obtain ⟨ph, pt, rfl⟩ := List.exists_cons_of_ne_nil hpne
  have htw := takeWhile_no_quote (ph :: pt) q2 e hp h2
  have hdw := dropWhile_no_quote (ph :: pt) q2 e hp h2
  rw [List.cons_append] at htw hdw
  simp only [matchNorm, stripPrefixCL_self_append, h1, if_true, stripPrefixCL,
    List.cons_append, htw, hdw, h2, reduceIte]
  rfl

theorem matchNorm_eval_true (pre : List Char) (p : List Char) (q1 q2 : Char)
    (e : List Char) (h1 : isQuoteChar q1 = true) (h2 : isQuoteChar q2 = true)
    (hp : ∀ c ∈ p, isQuoteChar c = false) (hpne : p ≠ []) :
    matchNorm pre true (pre ++ q1 :: '@' :: '/' :: (p ++ q2 :: ')' :: e)) =
      some (p, e) := by
  obtain ⟨ph, pt, rfl⟩ := List.exists_cons_of_ne_nil hpne
  have htw := takeWhile_no_quote (ph :: pt) q2 (')' :: e) hp h2
  have hdw := dropWhile_no_quote (ph :: pt) q2 (')' :: e) hp h2
  rw [List.cons_append] at htw hdw
  simp only [matchNorm, stripPrefixCL_self_append, h1, if_true, stripPrefixCL,
    List.cons_append, htw, hdw, h2, reduceIte]

/-- No quote character occurs in the list. -/
abbrev noQuote (xs : List Char) : Prop := ∀ c ∈ xs, isQuoteChar c = false

theorem isQuote_cases {c : Char} (h : isQuoteChar c = true) :
    c = '\'' ∨ c = '"' := by
  simp [isQuoteChar] at h
  exact h

theorem quote_not_in_registry {c : Char} (h : isQuoteChar c = true) :
    c ∉ "registry/".toList := by
  rcases isQuote_cases h with rfl | rfl <;> decide

/-- The text that the role matcher tests against `registry/` after the
quote: the optional `@/` is stripped when present. -/
def afterOptAlias (b : List Char) : List Char :=
  match stripPrefixCL ['@', '/'] b with
  | some t => t
  | none => b

theorem matchRole_none_of_badTail (pre dir : List Char) (s : List Char)
    (H : ∀ a q b, s = a ++ q :: b → isQuoteChar q = true →
      startsWithCL (afterOptAlias b) "registry/".toList = false) :
    matchRole pre dir s = none := by
  rw [matchRole]
  cases hs : stripPrefixCL pre s with
  | none => rfl
  | some s1 =>
    cases s1 with
    | nil => rfl
    | cons q s2 =>
      by_cases hq : isQuoteChar q = true
      · have hbad := H pre q s2 (stripPrefixCL_sound hs) hq
        rw [afterOptAlias] at hbad
        simp only [hq, if_true]
        cases h2 : stripPrefixCL ['@', '/'] s2 with
        | none =>
          simp only [h2] at hbad
          simp only [stripPrefixCL_none_of_not_startsWith hbad]
        | some t =>
          simp only [h2] at hbad
          simp only [stripPrefixCL_none_of_not_startsWith hbad]
      · have hq2 : isQuoteChar q = false := by
          cases hqv : isQuoteChar q with
          | false => rfl
          | true => exact absurd hqv hq
        simp only [hq2, Bool.false_eq_true, if_false]

theorem matchRole_none_suffix {s : List Char}
    (H : ∀ a q b, s = a ++ q :: b → isQuoteChar q = true →
      startsWithCL (afterOptAlias b) "registry/".toList = false) :
    ∀ pre dir t, t <:+ s → matchRole pre dir t = none := by
  intro pre dir t ht
  obtain ⟨u, hu⟩ := ht
  apply matchRole_none_of_badTail
  intro a q b heq hq
  exact H (u ++ a) q b (by rw [← hu, heq, List.append_assoc]) hq

theorem applyRolePasses_id (maps : List (String × String)) {s : List Char}
    (h : ∀ pre dir t, t <:+ s → matchRole pre dir t = none) :
    applyRolePasses maps s = s := by
  unfold applyRolePasses
  generalize (List.flatten (maps.map
    (fun m => stmtPrefixes.map (fun pre => (pre, m))))) = l
  induction l with
  | nil => rfl
  | cons pm l ih =>
    rw [List.foldl_cons,
      rolePass_id pm.2.2.toList (fun t ht => h pm.1.toList pm.2.1.toList t ht), ih]

theorem normPass_nil (pre : List Char) (wp : Bool) : normPass pre wp [] = [] := rfl

theorem normPass_cons_none {pre : List Char} {wp : Bool} {c : Char}
    {cs : List Char} (h : matchNorm pre wp (c :: cs) = none) :
    normPass pre wp (c :: cs) = c :: normPass pre wp cs := by
  unfold normPass
  exact scanReplace_cons_none (by show (matchNorm pre wp (c :: cs)).map _ = none; rw [h]; rfl)

theorem normPass_cons_some {pre : List Char} {wp : Bool} {c : Char}
    {cs cap r : List Char} (h : matchNorm pre wp (c :: cs) = some (cap, r))
    (hr : r <:+ cs) :
    normPass pre wp (c :: cs) =
      (pre ++ '"' :: '@' :: '/' :: (cap ++ '"' :: (if wp then [')'] else []))) ++
        normPass pre wp r := by
  unfold normPass
  exact scanReplace_cons_some
    (by show (matchNorm pre wp (c :: cs)).map _ = _; rw [h]; rfl) hr

theorem normPass_all {pre : List Char} {wp : Bool} {s cap : List Char}
    (hs : s ≠ []) (h : matchNorm pre wp s = some (cap, [])) :
    normPass pre wp s =
      pre ++ '"' :: '@' :: '/' :: (cap ++ '"' :: (if wp then [')'] else [])) := by
  obtain ⟨c, cs, rfl⟩ := List.exists_cons_of_ne_nil hs
  rw [normPass_cons_some h (List.nil_suffix), normPass_nil, List.append_nil]

theorem matchNorm_sw {pre : List Char} {wp : Bool} {t : List Char}
    (h : startsWithCL t pre = false) : matchNorm pre wp t = none := by
  rw [matchNorm, stripPrefixCL_none_of_not_startsWith h]

theorem normPass_id_of_no_sw {pre : List Char} {wp : Bool} {s : List Char}
    (h : ∀ t, t <:+ s → startsWithCL t pre = false) :
    normPass pre wp s = s := by
  exact normPass_id (fun t ht => matchNorm_sw (h t ht))

/-- The common shape of the four import statement forms handled by the
quote-normalization passes: a concrete statement head, an opening quote, the
alias prefix `@/`, a path, a closing quote and a concrete tail. -/
def shape (front : List Char) (a : Char) (p : List Char) (b : Char)
    (e : List Char) : List Char :=
  front ++ a :: '@' :: '/' :: (p ++ b :: e)

theorem suffix_shape_cases (front : List Char) (a : Char) (p : List Char)
    (b : Char) (e : List Char) :
    ∀ t, t <:+ shape front a p b e →
      (∃ y, y <:+ front ∧ y ≠ [] ∧
        t = y ++ (a :: '@' :: '/' :: (p ++ b :: e))) ∨
      t = a :: '@' :: '/' :: (p ++ b :: e) ∨
      t = '@' :: '/' :: (p ++ b :: e) ∨
      t = '/' :: (p ++ b :: e) ∨
      (∃ x, x <:+ p ∧ x ≠ [] ∧ t = x ++ (b :: e)) ∨
      t = b :: e ∨
      t <:+ e := by
  intro t ht
  rw [shape] at ht
  rcases suffix_append_cases front _ t ht with h | ⟨y, hy, hyne, rfl⟩
  · rcases List.suffix_cons_iff.mp h with rfl | h
    · exact Or.inr (Or.inl rfl)
    rcases List.suffix_cons_iff.mp h with rfl | h
    · exact Or.inr (Or.inr (Or.inl rfl))
    rcases List.suffix_cons_iff.mp h with rfl | h
    · exact Or.inr (Or.inr (Or.inr (Or.inl rfl)))
    rcases suffix_append_cases p _ t h with h2 | ⟨x, hx, hxne, rfl⟩
    · rcases List.suffix_cons_iff.mp h2 with rfl | h2
      · exact Or.inr (Or.inr (Or.inr (Or.inr (Or.inr (Or.inl rfl)))))
      · exact Or.inr (Or.inr (Or.inr (Or.inr (Or.inr (Or.inr h2)))))
    · exact Or.inr (Or.inr (Or.inr (Or.inr (Or.inl ⟨x, hx, hxne, rfl⟩))))
  · exact Or.inl ⟨y, hy, hyne, rfl⟩

/-- Master lemma: no suffix of a statement shape starts with the statement
head `pre` of a different normalization pass. -/
theorem shape_no_sw {front : List Char} {a : Char} {p : List Char} {b : Char}
    {e : List Char} {pre : List Char} (w : Char)
    (h1 : ∀ y ∈ front.tails, y ≠ [] → mismatch y pre = true)
    (h2 : mismatch [a, '@', '/'] pre = true)
    (h3 : mismatch ['@', '/'] pre = true)
    (h4 : mismatch ['/'] pre = true)
    (h5w : w ∈ pre) (h5p : w ∉ p) (h5b : b ∉ pre)
    (h6 : mismatch [b] pre = true)
    (h7 : ∀ t ∈ e.tails, startsWithCL t pre = false) :
    ∀ t, t <:+ shape front a p b e → startsWithCL t pre = false := by
  intro t ht
  rcases suffix_shape_cases front a p b e t ht with
    ⟨y, hy, hyne, rfl⟩ | rfl | rfl | rfl | ⟨x, hx, hxne, rfl⟩ | rfl | hte
  · exact sw_false_of_mismatch (h1 y ((List.mem_tails y front).mpr hy) hyne) _
  · exact sw_false_of_mismatch h2 (p ++ b :: e)
  · exact sw_false_of_mismatch h3 (p ++ b :: e)
  · exact sw_false_of_mismatch h4 (p ++ b :: e)
  · cases hsw : startsWithCL (x ++ b :: e) pre with
    | false => rfl
    | true =>
      exfalso
      by_cases hlen : pre.length ≤ x.length
      · exact h5p (hx.subset (sw_subset (sw_of_append_long hsw hlen) w h5w))
      · exact h5b (startsWith_mem_of_short x b e pre hsw (by omega))
  · exact sw_false_of_mismatch h6 e
  · exact h7 t ((List.mem_tails t e).mpr hte)

theorem mismatch_head_ne {a d : Char} (l ds : List Char) (h : a ≠ d) :
    mismatch (a :: l) (d :: ds) = true := by rw [mismatch, if_neg h]

theorem quote_ne {a c : Char} (h : isQuoteChar a = true)
    (hc : isQuoteChar c = false) : a ≠ c := by
  intro e
  rw [e, hc] at h
  exact Bool.noConfusion h

theorem quote_not_mem {b : Char} {pre : List Char} (h : isQuoteChar b = true)
    (hpre : noQuote pre) : b ∉ pre :=
  fun hm => by rw [hpre b hm] at h; exact Bool.noConfusion h

/-- A well-behaved alias path: nonempty, free of quotes, spaces and opening
parentheses, and not itself beginning with the virtual `registry/` prefix. -/
abbrev GoodPath (p : List Char) : Prop :=
  p ≠ [] ∧ noQuote p ∧ ' ' ∉ p ∧ '(' ∉ p ∧
    startsWithCL p "registry/".toList = false

def stmtFromCL (q1 : Char) (p : List Char) (q2 : Char) : List Char :=
  shape "from ".toList q1 p q2 []

def outFromCL (p : List Char) : List Char :=
  shape "from ".toList '"' p '"' []

def stmtImportCL (q1 : Char) (p : List Char) (q2 : Char) : List Char :=
  shape "import ".toList q1 p q2 []

def outImportCL (p : List Char) : List Char :=
  shape "import ".toList '"' p '"' []

def stmtDynImportCL (q1 : Char) (p : List Char) (q2 : Char) : List Char :=
  shape "import(".toList q1 p q2 [')']

def outDynImportCL (p : List Char) : List Char :=
  shape "import(".toList '"' p '"' [')']

def stmtAtImportCL (q1 : Char) (p : List Char) (q2 : Char) : List Char :=
  shape "@import ".toList q1 p q2 []

def outAtImportCL (p : List Char) : List Char :=
  shape "@import ".toList '"' p '"' []

theorem shape_quoteTails {front p e : List Char} {q1 q2 : Char}
    (hf : noQuote front) (hp : noQuote p) (he : noQuote e)
    (hq2 : isQuoteChar q2 = true)
    (hreg : startsWithCL p "registry/".toList = false)
    (hesw : startsWithCL (afterOptAlias e) "registry/".toList = false) :
    ∀ a q b, shape front q1 p q2 e = a ++ q :: b → isQuoteChar q = true →
      startsWithCL (afterOptAlias b) "registry/".toList = false := by
  intro a q b heq hq
  have hm : noQuote ('@' :: '/' :: p) := by
    intro c hc
    rcases List.mem_cons.mp hc with rfl | hc
    · decide
    rcases List.mem_cons.mp hc with rfl | hc
    · decide
    · exact hp c hc
  have heq2 : front ++ q1 :: (('@' :: '/' :: p) ++ q2 :: e) = a ++ q :: b := by
    rw [← heq, shape]
    rfl
  rcases quote_decomp front a hf hm he heq2 hq with rfl | rfl
  · rw [afterOptAlias]
    have hstrip : stripPrefixCL ['@', '/'] (('@' :: '/' :: p) ++ q2 :: e) =
        some (p ++ q2 :: e) := stripPrefixCL_self_append ['@', '/'] (p ++ q2 :: e)
    simp only [hstrip]
    exact startsWith_false_append_cons hreg (quote_not_in_registry hq2)
  · exact hesw

theorem mismatch_quote_head {a : Char} (ha : isQuoteChar a = true)
    (l pre : List Char) (hne : pre ≠ []) (hq : isQuoteChar pre.headI = false) :
    mismatch (a :: l) pre = true := by
  cases pre with
  | nil => exact absurd rfl hne
  | cons d ds => exact mismatch_head_ne l ds (quote_ne ha (by simpa using hq))

theorem normPass_match_form (front : List Char) {p : List Char} {q1 q2 : Char}
    (hpne : p ≠ []) (hpq : noQuote p)
    (hq1 : isQuoteChar q1 = true) (hq2 : isQuoteChar q2 = true) :
    normPass front false (shape front q1 p q2 []) = shape front '"' p '"' [] := by
  have hm : matchNorm front false (shape front q1 p q2 []) = some (p, []) := by
    rw [shape]
    exact matchNorm_eval_false front p q1 q2 [] hq1 hq2 hpq hpne
  rw [normPass_all (by rw [shape]; simp) hm, shape]
  rfl

theorem normPass_match_form_paren (front : List Char) {p : List Char}
    {q1 q2 : Char} (hpne : p ≠ []) (hpq : noQuote p)
    (hq1 : isQuoteChar q1 = true) (hq2 : isQuoteChar q2 = true) :
    normPass front true (shape front q1 p q2 [')']) =
      shape front '"' p '"' [')'] := by
  have hm : matchNorm front true (shape front q1 p q2 [')']) = some (p, []) := by
    rw [shape]
    exact matchNorm_eval_true front p q1 q2 [] hq1 hq2 hpq hpne
  rw [normPass_all (by rw [shape]; simp) hm, shape]
  rfl

theorem mk_shape_ne_empty (front : List Char) (a : Char) (p : List Char)
    (b : Char) (e : List Char) : String.mk (shape front a p b e) ≠ "" := by
  intro h
  have h2 : shape front a p b e = ([] : List Char) := congrArg String.data h
  rw [shape] at h2
  simp at h2

theorem pipeline_from {p : List Char} {q1 q2 : Char} (hg : GoodPath p)
    (hq1 : isQuoteChar q1 = true) (hq2 : isQuoteChar q2 = true) :
    replaceRegistryPaths none (String.mk (stmtFromCL q1 p q2)) =
      String.mk (outFromCL p) := by
  obtain ⟨hpne, hpq, hsp, hpar, hreg⟩ := hg
  rw [stmtFromCL, replaceRegistryPaths, if_neg (mk_shape_ne_empty _ _ _ _ _)]
  have htl : (String.mk (shape "from ".toList q1 p q2 [])).toList =
      shape "from ".toList q1 p q2 [] := rfl
  rw [htl]
  have hrole : applyRolePasses (mappingsOf none)
      (shape "from ".toList q1 p q2 []) = shape "from ".toList q1 p q2 [] :=
    applyRolePasses_id _ (matchRole_none_suffix
      (shape_quoteTails (by decide) hpq (by decide) hq2 hreg (by decide)))
  rw [hrole, normalizeQuotes]
  rw [normPass_match_form "from ".toList hpne hpq hq1 hq2]
  rw [normPass_id_of_no_sw (shape_no_sw ' ' (by decide) (by decide) (by decide)
    (by decide) (by decide) hsp (by decide) (by decide) (by decide))]
  rw [normPass_id_of_no_sw (shape_no_sw '(' (by decide) (by decide) (by decide)
    (by decide) (by decide) hpar (by decide) (by decide) (by decide))]
  rw [normPass_id_of_no_sw (shape_no_sw ' ' (by decide) (by decide) (by decide)
    (by decide) (by decide) hsp (by decide) (by decide) (by decide))]
  rw [outFromCL]

theorem pipeline_import {p : List Char} {q1 q2 : Char} (hg : GoodPath p)
    (hq1 : isQuoteChar q1 = true) (hq2 : isQuoteChar q2 = true) :
    replaceRegistryPaths none (String.mk (stmtImportCL q1 p q2)) =
      String.mk (outImportCL p) := by
  obtain ⟨hpne, hpq, hsp, hpar, hreg⟩ := hg
  rw [stmtImportCL, replaceRegistryPaths, if_neg (mk_shape_ne_empty _ _ _ _ _)]
  have htl : (String.mk (shape "import ".toList q1 p q2 [])).toList =
      shape "import ".toList q1 p q2 [] := rfl
  rw [htl]
  have hrole : applyRolePasses (mappingsOf none)
      (shape "import ".toList q1 p q2 []) = shape "import ".toList q1 p q2 [] :=
    applyRolePasses_id _ (matchRole_none_suffix
      (shape_quoteTails (by decide) hpq (by decide) hq2 hreg (by decide)))
  rw [hrole, normalizeQuotes]
  rw [normPass_id_of_no_sw (shape_no_sw ' ' (by decide)
    (mismatch_quote_head hq1 _ _ (by decide) (by decide)) (by decide) (by decide)
    (by decide) hsp (quote_not_mem hq2 (by decide))
    (mismatch_quote_head hq2 _ _ (by decide) (by decide)) (by decide))]
  rw [normPass_match_form "import ".toList hpne hpq hq1 hq2]
  rw [normPass_id_of_no_sw (shape_no_sw '(' (by decide) (by decide) (by decide)
    (by decide) (by decide) hpar (by decide) (by decide) (by decide))]
  rw [normPass_id_of_no_sw (shape_no_sw ' ' (by decide) (by decide) (by decide)
    (by decide) (by decide) hsp (by decide) (by decide) (by decide))]
  rw [outImportCL]

theorem pipeline_dyn {p : List Char} {q1 q2 : Char} (hg : GoodPath p)
    (hq1 : isQuoteChar q1 = true) (hq2 : isQuoteChar q2 = true) :
    replaceRegistryPaths none (String.mk (stmtDynImportCL q1 p q2)) =
      String.mk (outDynImportCL p) := by
  obtain ⟨hpne, hpq, hsp, hpar, hreg⟩ := hg
  rw [stmtDynImportCL, replaceRegistryPaths, if_neg (mk_shape_ne_empty _ _ _ _ _)]
  have htl : (String.mk (shape "import(".toList q1 p q2 [')'])).toList =
      shape "import(".toList q1 p q2 [')'] := rfl
  rw [htl]
  have hrole : applyRolePasses (mappingsOf none)
      (shape "import(".toList q1 p q2 [')']) =
      shape "import(".toList q1 p q2 [')'] :=
    applyRolePasses_id _ (matchRole_none_suffix
      (shape_quoteTails (by decide) hpq (by decide) hq2 hreg (by decide)))
  rw [hrole, normalizeQuotes]
  rw [normPass_id_of_no_sw (shape_no_sw ' ' (by decide)
    (mismatch_quote_head hq1 _ _ (by decide) (by decide)) (by decide) (by decide)
    (by decide) hsp (quote_not_mem hq2 (by decide))
    (mismatch_quote_head hq2 _ _ (by decide) (by decide)) (by decide))]
  rw [normPass_id_of_no_sw (shape_no_sw ' ' (by decide)
    (mismatch_quote_head hq1 _ _ (by decide) (by decide)) (by decide) (by decide)
    (by decide) hsp (quote_not_mem hq2 (by decide))
    (mismatch_quote_head hq2 _ _ (by decide) (by decide)) (by decide))]
  rw [normPass_match_form_paren "import(".toList hpne hpq hq1 hq2]
  rw [normPass_id_of_no_sw (shape_no_sw ' ' (by decide) (by decide) (by decide)
    (by decide) (by decide) hsp (by decide) (by decide) (by decide))]
  rw [outDynImportCL]

theorem pipeline_at {p : List Char} {q1 q2 : Char} (hg : GoodPath p)
    (hq1 : isQuoteChar q1 = true) (hq2 : isQuoteChar q2 = true) :
    replaceRegistryPaths none (String.mk (stmtAtImportCL q1 p q2)) =
      String.mk (outAtImportCL p) := by
  obtain ⟨hpne, hpq, hsp, hpar, hreg⟩ := hg
  rw [stmtAtImportCL, replaceRegistryPaths, if_neg (mk_shape_ne_empty _ _ _ _ _)]
  have htl : (String.mk (shape "@import ".toList q1 p q2 [])).toList =
      shape "@import ".toList q1 p q2 [] := rfl
  rw [htl]
  have hrole : applyRolePasses (mappingsOf none)
      (shape "@import ".toList q1 p q2 []) =
      shape "@import ".toList q1 p q2 [] :=
    applyRolePasses_id _ (matchRole_none_suffix
      (shape_quoteTails (by decide) hpq (by decide) hq2 hreg (by decide)))
  rw [hrole, normalizeQuotes]
  rw [normPass_id_of_no_sw (shape_no_sw ' ' (by decide)
    (mismatch_quote_head hq1 _ _ (by decide) (by decide)) (by decide) (by decide)
    (by decide) hsp (quote_not_mem hq2 (by decide))
    (mismatch_quote_head hq2 _ _ (by decide) (by decide)) (by decide))]
  have hnone : matchNorm "import ".toList false
      ('@' :: shape "import ".toList q1 p q2 []) = none :=
    matchNorm_sw (@sw_false_of_mismatch ['@'] "import ".toList (by decide)
      (shape "import ".toList q1 p q2 []))
  have hI : normPass "import ".toList false (shape "@import ".toList q1 p q2 []) =
      shape "@import ".toList '"' p '"' [] := by
    rw [show shape "@import ".toList q1 p q2 [] =
      '@' :: shape "import ".toList q1 p q2 [] from rfl]
    rw [normPass_cons_none hnone]
    rw [normPass_match_form "import ".toList hpne hpq hq1 hq2]
    rfl
  rw [hI]
  rw [normPass_id_of_no_sw (shape_no_sw '(' (by decide) (by decide) (by decide)
    (by decide) (by decide) hpar (by decide) (by decide) (by decide))]
  rw [normPass_match_form "@import ".toList hpne hpq (by decide) (by decide)]
  rw [outAtImportCL]

/-- C6: under the default alias mappings, the rewriter maps the `from`
statements for `registry/nextjs/components/button`, with or without a leading
`@/` and in either quote style, to the identical output
`from "@/components/button"`; it maps `@import "registry/universal/lib/tokens"`
to `@import "@/lib/tokens"`; and for every well-behaved alias path, every
`from`/`import`/dynamic-import/`@import` statement whose path begins with `@/`
comes out of the full pipeline using double quotes, whatever quote style the
input used. -/
theorem c6_rewriter_examples_and_quote_normalization :
    (∀ q1 q2 : Char, isQuoteChar q1 = true → isQuoteChar q2 = true →
      replaceRegistryPaths none (String.mk ("from ".toList ++ q1 ::
        ("registry/nextjs/components/button".toList ++ [q2]))) =
        "from \"@/components/button\"" ∧
      replaceRegistryPaths none (String.mk ("from ".toList ++ q1 ::
        ("@/registry/nextjs/components/button".toList ++ [q2]))) =
        "from \"@/components/button\"") ∧
    replaceRegistryPaths none "@import \"registry/universal/lib/tokens\"" =
      "@import \"@/lib/tokens\"" ∧
    (∀ (p : List Char) (q1 q2 : Char), GoodPath p → isQuoteChar q1 = true →
      isQuoteChar q2 = true →
      replaceRegistryPaths none (String.mk (stmtFromCL q1 p q2)) =
        String.mk (outFromCL p) ∧
      replaceRegistryPaths none (String.mk (stmtImportCL q1 p q2)) =
        String.mk (outImportCL p) ∧
      replaceRegistryPaths none (String.mk (stmtDynImportCL q1 p q2)) =
        String.mk (outDynImportCL p) ∧
      replaceRegistryPaths none (String.mk (stmtAtImportCL q1 p q2)) =
        String.mk (outAtImportCL p)) := by
  refine ⟨?_, by decide, ?_⟩
  · intro q1 q2 hq1 hq2
    rcases isQuote_cases hq1 with rfl | rfl <;>
      rcases isQuote_cases hq2 with rfl | rfl <;>
      exact ⟨by decide, by decide⟩
  · intro p q1 q2 hg hq1 hq2
    exact ⟨pipeline_from hg hq1 hq2, pipeline_import hg hq1 hq2,
      pipeline_dyn hg hq1 hq2, pipeline_at hg hq1 hq2⟩

theorem c6_rewriter_examples_and_quote_normalization_witness :
    replaceRegistryPaths none (String.mk ("from ".toList ++ '\'' ::
      ("registry/nextjs/components/button".toList ++ ['\'']))) =
      "from \"@/components/button\"" ∧
    GoodPath "components/button".toList ∧
    replaceRegistryPaths none
      (String.mk (stmtFromCL '\'' "components/button".toList '\'')) =
      String.mk (outFromCL "components/button".toList) := by
  refine ⟨(c6_rewriter_examples_and_quote_normalization.1 '\'' '\''
    (by decide) (by decide)).1, by decide, ?_⟩
  exact (c6_rewriter_examples_and_quote_normalization.2.2
    "components/button".toList '\'' '\'' (by decide) (by decide) (by decide)).1

end LiftKit
